import Mathlib

/-!
Verification of the semantic-zoom "Zoom Engine" (phase 6 of the repository):
seed selection (`seed_selection.py`), subgraph extraction
(`subgraph_extraction.py`) and sparse rendering (`sparse_render.py`).

Strings from the source are embedded as `List Char`; Python sets of ints as
`Finset Int`; Python dict-based adjacency as a total function
`Int → Finset Int` (the dict is pre-populated with one key per token, and
every access the source performs is guarded; theorems that depend on the
dict's key set carry well-formedness hypotheses — `DenseIds`, `WFChildren` —
under which the source never hits a missing key, i.e. never raises
`KeyError`).
-/

/-- `ParsedToken` from `phase1/dependency_parser.py`: a token with
dependency-parse annotations.  `head_id = -1` marks the sentence root. -/
structure ParsedToken where
  id : Int
  text : List Char
  whitespace_after : List Char
  is_punct : Bool
  start_char : Int
  end_char : Int
  pos : String
  tag : String
  head_id : Int
  dep : String
  children_ids : List Int
deriving DecidableEq, Repr

/-- `Seed` from `phase6/seed_selection.py`.  The `uuid.uuid4()`-generated
`id` is modelled as the constant `""` (no property in this development
depends on it). -/
structure Seed where
  id : String
  start_id : Int
  end_id : Int
  word_ids : List Int
  text : List Char
  sentence_start_id : Option Int := none
  sentence_end_id : Option Int := none
  clause_root_id : Option Int := none
deriving DecidableEq, Repr

/-- `SubgraphResult` from `phase6/subgraph_extraction.py`. -/
structure SubgraphResult where
  word_ids : List Int
  zoom_level : Nat
  seed_ids : List String
deriving DecidableEq, Repr

/-- Result dict of `SparseRenderer.get_coverage_stats`; the float
`coverage_percent` is modelled as a rational. -/
structure CoverageStats where
  total_tokens : Nat
  included_tokens : Nat
  coverage_percent : ℚ
  gap_count : Nat
  zoom_level : Nat
deriving DecidableEq, Repr

/-- `range(start_id, end_id + 1)` materialized as a list of `Int`. -/
def rangeList (a b : Int) : List Int :=
  (List.range (b + 1 - a).toNat).map (fun k : Nat => a + (k : Int))

/-- Stable insertion of a token into a list sorted by ascending `id`
(auxiliary for `sortById`). -/
def insertById (t : ParsedToken) : List ParsedToken → List ParsedToken
  | [] => [t]
  | u :: us => if t.id ≤ u.id then t :: u :: us else u :: insertById t us

/-- `sorted(tokens, key=lambda t: t.id)`: stable sort by ascending id. -/
def sortById : List ParsedToken → List ParsedToken
  | [] => []
  | t :: ts => insertById t (sortById ts)

/-- The part-concatenation loop of `SeedSelector._build_text`: each token's
text, with its trailing whitespace appended for every token except the
last. -/
def joinWithWs : List ParsedToken → List Char
  | [] => []
  | [t] => t.text
  | t :: u :: us => t.text ++ t.whitespace_after ++ joinWithWs (u :: us)

/-- `SeedSelector._build_text`. -/
def buildText (toks : List ParsedToken) : List Char :=
  if toks = [] then [] else joinWithWs (sortById toks)

/-- The sentence-terminal punctuation set `{'.', '!', '?'}`. -/
def sentencePunct : List (List Char) := [['.'], ['!'], ['?']]

/-- First loop of `SeedSelector._find_sentence_bounds`: the accumulator is
`start_id`, updated to `t.id + 1` at each sentence-ending punctuation token
before `token_id`. -/
def sentStartLoop (tokenId : Int) : List ParsedToken → Int → Int
  | [], acc => acc
  | t :: ts, acc =>
    if tokenId ≤ t.id then acc
    else sentStartLoop tokenId ts (if t.text ∈ sentencePunct then t.id + 1 else acc)

/-- Second loop of `SeedSelector._find_sentence_bounds`: the first
sentence-ending punctuation token at or after `token_id`, defaulting to
`len(tokens) - 1`. -/
def sentEndLoop (tokenId : Int) : List ParsedToken → Int → Int
  | [], dflt => dflt
  | t :: ts, dflt =>
    if tokenId ≤ t.id ∧ t.text ∈ sentencePunct then t.id
    else sentEndLoop tokenId ts dflt

/-- `SeedSelector._find_sentence_bounds`. -/
def findSentenceBounds (tokens : List ParsedToken) (tokenId : Int) : Int × Int :=
  (sentStartLoop tokenId tokens 0, sentEndLoop tokenId tokens ((tokens.length : Int) - 1))

/-- Clause-marking dependency labels from `SeedSelector._find_clause_root`. -/
def clauseDeps : List String := ["ccomp", "xcomp", "advcl", "relcl", "acl", "ROOT"]

/-- The head-chain walk of `SeedSelector._find_clause_root`.  The Python
`while` loop terminates because each iteration inserts a fresh id into
`visited` and moves to a distinct token; the fuel `tokens.length + 1`
supplied by `findClauseRoot` therefore never runs out. -/
def clauseRootLoop (tokens : List ParsedToken) :
    Nat → ParsedToken → Finset Int → Int
  | 0, current, _ => current.id
  | fuel + 1, current, visited =>
    if 0 ≤ current.head_id ∧ current.head_id ∉ visited then
      if current.dep ∈ clauseDeps ∨ current.dep = "ROOT" then current.id
      else
        match tokens.find? (fun u => u.id == current.head_id) with
        | none => current.id
        | some h => clauseRootLoop tokens fuel h (insert current.head_id visited)
    else current.id

/-- `SeedSelector._find_clause_root`. -/
def findClauseRoot (tokens : List ParsedToken) (tokenId : Int) : Option Int :=
  match tokens.find? (fun t => t.id == tokenId) with
  | none => none
  | some t => some (clauseRootLoop tokens (tokens.length + 1) t {t.id})

/-- `SeedSelector.select_range`. -/
def selectRange (tokens : List ParsedToken) (startId endId : Int) : Seed :=
  let wordIds := rangeList startId endId
  let selected := tokens.filter (fun t => t.id ∈ wordIds)
  let text := buildText selected
  let bounds := findSentenceBounds tokens startId
  let clauseRoot := findClauseRoot tokens startId
  { id := ""
    start_id := startId
    end_id := endId
    word_ids := wordIds
    text := text
    sentence_start_id := some bounds.1
    sentence_end_id := some bounds.2
    clause_root_id := clauseRoot }

/-- `COPULA_LEMMAS` from `subgraph_extraction.py`. -/
def COPULA_LEMMAS : List (List Char) :=
  [['b','e'], ['i','s'], ['a','m'], ['a','r','e'], ['w','a','s'],
   ['w','e','r','e'], ['b','e','e','n'], ['b','e','i','n','g']]

/-- `str.lower()` on an embedded string. -/
def lowerChars (s : List Char) : List Char := s.map Char.toLower

/-- `SubgraphExtractor._find_copula_ids`: AUX tokens in ROOT position whose
lowercased text is a form of "be". -/
def copulaIds (tokens : List ParsedToken) : Finset Int :=
  ((tokens.filter
      (fun t => t.pos = "AUX" ∧ t.dep = "ROOT" ∧ lowerChars t.text ∈ COPULA_LEMMAS)).map
    (fun t => t.id)).toFinset

/-- `adjacency[i].add(j)`. -/
def addDirEdge (adj : Int → Finset Int) (i j : Int) : Int → Finset Int :=
  fun k => if k = i then insert j (adj k) else adj k

/-- The paired `adjacency[i].add(j); adjacency[j].add(i)` the source always
performs. -/
def addEdge (adj : Int → Finset Int) (i j : Int) : Int → Finset Int :=
  addDirEdge (addDirEdge adj i j) j i

/-- The sibling-link pass of `_build_adjacency` (lines 167–177): when `t`'s
head is transparent, `t` is linked to each of the head's other dependents
whose id is below `len(tokens)`. -/
def sibStep (tokens : List ParsedToken) (transparent : Finset Int)
    (adj : Int → Finset Int) (t : ParsedToken) : Int → Finset Int :=
  if t.head_id ∈ transparent ∧ 0 ≤ t.head_id then
    match tokens.find? (fun u => u.id == t.head_id) with
    | none => adj
    | some tt =>
      tt.children_ids.foldl
        (fun a s =>
          if s ≠ t.id ∧ s < (tokens.length : Int) then addEdge a t.id s else a)
        adj
  else adj

/-- The head-link pass of `_build_adjacency` (lines 179–183): link `t` to
its head when the head id is in range and not transparent. -/
def headStep (tokens : List ParsedToken) (transparent : Finset Int)
    (adj : Int → Finset Int) (t : ParsedToken) : Int → Finset Int :=
  if (0 ≤ t.head_id ∧ t.head_id < (tokens.length : Int)) ∧ t.head_id ∉ transparent then
    addEdge adj t.id t.head_id
  else adj

/-- The child-link pass of `_build_adjacency` (lines 185–189): link `t` to
each recorded child whose id is below `len(tokens)` and not transparent. -/
def childStep (tokens : List ParsedToken) (transparent : Finset Int)
    (adj : Int → Finset Int) (t : ParsedToken) : Int → Finset Int :=
  t.children_ids.foldl
    (fun a c =>
      if c < (tokens.length : Int) ∧ c ∉ transparent then addEdge a t.id c else a)
    adj

/-- The body of the `for token in tokens` loop of
`SubgraphExtractor._build_adjacency`: sibling links through a transparent
head, then the head link, then the child links. -/
def processToken (tokens : List ParsedToken) (transparent : Finset Int)
    (adj : Int → Finset Int) (t : ParsedToken) : Int → Finset Int :=
  childStep tokens transparent
    (headStep tokens transparent (sibStep tokens transparent adj t) t) t

/-- `SubgraphExtractor._build_adjacency`.  The Python dict maps each token
id to a set; it is modelled as a total function that is empty away from the
ids actually written. -/
def buildAdjacency (tokens : List ParsedToken) (transparent : Finset Int) :
    Int → Finset Int :=
  tokens.foldl (processToken tokens transparent) (fun _ => ∅)

/-- `SubgraphExtractor._expand_n_hops`.  `keys` is the adjacency dict's key
set (the `if token_id in adjacency` guard); the frontier is recomputed
against the `expanded` set fixed at the start of each hop, exactly as in the
source, and expansion stops early on an empty frontier. -/
def expandNHops (adj : Int → Finset Int) (keys : Finset Int) (maxId : Int) :
    Finset Int → Finset Int → Nat → Finset Int
  | _, exp, 0 => exp
  | cur, exp, n + 1 =>
    let nf := (cur.filter (fun i => i ∈ keys)).biUnion
      (fun i => (adj i).filter (fun j => j ∉ exp ∧ j < maxId))
    if nf = ∅ then exp ∪ nf else expandNHops adj keys maxId nf (exp ∪ nf) n

/-- The seed-union loop of `SubgraphExtractor.extract` (lines 90–92). -/
def seedUnionIds (seeds : List Seed) : Finset Int :=
  seeds.foldl (fun acc s => acc ∪ s.word_ids.toFinset) ∅

/-- `SubgraphExtractor.extract`.  `instSkip` is the instance's
`skip_copulas`, `skipOv` the per-call override (`None` ↦ instance value).
The zoom level is a `Nat`: Python's `range(zoom_level)` makes every
negative zoom behave exactly like zoom 0. -/
def extract (instSkip : Bool) (tokens : List ParsedToken) (seeds : List Seed)
    (zoom : Nat) (skipOv : Option Bool) : SubgraphResult :=
  if seeds = [] then
    { word_ids := [], zoom_level := zoom, seed_ids := [] }
  else
    let shouldSkip := skipOv.getD instSkip
    let copulas := if shouldSkip then copulaIds tokens else ∅
    let seedWordIds := seedUnionIds seeds
    let adj := buildAdjacency tokens (if shouldSkip then copulas else ∅)
    let expanded := expandNHops adj ((tokens.map (fun t => t.id)).toFinset)
      (tokens.length : Int) seedWordIds seedWordIds zoom
    let finalIds := if shouldSkip then expanded \ copulas else expanded
    { word_ids := finalIds.sort (· ≤ ·)
      zoom_level := zoom
      seed_ids := seeds.map (fun s => s.id) }

/-- The default placeholder string `"[...]"` of `SparseRenderer.__init__`. -/
def defaultPh : List Char := ['[', '.', '.', '.', ']']

/-- `PRONOUNS` from `sparse_render.py` (duplicates in the source literal
collapse in the Python set; list membership gives the same predicate). -/
def PRONOUNS : List (List Char) :=
  (["i", "you", "he", "she", "it", "we", "they",
    "me", "him", "her", "us", "them",
    "my", "your", "his", "its", "our", "their",
    "mine", "yours", "hers", "ours", "theirs",
    "myself", "yourself", "himself", "herself", "itself", "ourselves", "themselves",
    "this", "that", "these", "those",
    "who", "whom", "whose", "which",
    "what"]).map String.toList

/-- `SparseRenderer.find_pronouns`. -/
def findPronouns (tokens : List ParsedToken) : Finset Int :=
  ((tokens.filter
      (fun t => t.pos = "PRON" ∨ lowerChars t.text ∈ PRONOUNS)).map
    (fun t => t.id)).toFinset

/-- The `for token in tokens` loop of `SparseRenderer.render`: accumulates
the `parts` list and the `in_gap` flag. -/
def renderLoop (includeIds : Finset Int) (ph : List Char) :
    List ParsedToken → List (List Char) → Bool → List (List Char) × Bool
  | [], parts, inGap => (parts, inGap)
  | t :: ts, parts, inGap =>
    if t.id ∈ includeIds then
      renderLoop includeIds ph ts
        (parts ++ (if inGap then [ph, [' ']] else []) ++ [t.text, t.whitespace_after])
        false
    else
      renderLoop includeIds ph ts parts true

/-- Leading-whitespace removal (half of Python `str.strip()`). -/
def dropLeadingWS (s : List Char) : List Char := s.dropWhile Char.isWhitespace

/-- Trailing-whitespace removal (the other half of `str.strip()`). -/
def dropTrailingWS (s : List Char) : List Char :=
  (s.reverse.dropWhile Char.isWhitespace).reverse

/-- Python `str.strip()`. -/
def stripChars (s : List Char) : List Char := dropTrailingWS (dropLeadingWS s)

/-- Python `str.replace(pat, rep)`: left-to-right, non-overlapping. -/
def replaceAll (pat rep : List Char) : List Char → List Char
  | [] => []
  | c :: s =>
    if hpre : pat ≠ [] ∧ pat <+: (c :: s) then
      rep ++ replaceAll pat rep ((c :: s).drop pat.length)
    else
      c :: replaceAll pat rep s
termination_by s => s.length
decreasing_by
  · simp only [List.length_drop, List.length_cons]
    have hp : 1 ≤ pat.length := by
      cases hq : pat with
      | nil => exact absurd hq hpre.1
      | cons a l => simp
    omega
  · simp

/-- The placeholder-collapsing `while` loop of `SparseRenderer.render`
(`while f"{ph} {ph}" in rendered: replace`).  Each replacement strictly
shortens the string, so the fuel `s.length + 1` supplied by `collapsePh`
never runs out. -/
def collapseGo (ph : List Char) : Nat → List Char → List Char
  | 0, s => s
  | fuel + 1, s =>
    if (ph ++ ' ' :: ph) <:+: s then
      collapseGo ph fuel (replaceAll (ph ++ ' ' :: ph) ph s)
    else s

/-- Duplicate-placeholder collapsing of `SparseRenderer.render`. -/
def collapsePh (ph s : List Char) : List Char := collapseGo ph (s.length + 1) s

/-- `SparseRenderer.render` with placeholder `ph`. -/
def render (ph : List Char) (tokens : List ParsedToken) (result : SubgraphResult)
    (preservePronouns : Bool) : List Char :=
  if result.word_ids = [] then []
  else
    let includeIds := result.word_ids.toFinset ∪
      (if preservePronouns then findPronouns tokens else ∅)
    let st := renderLoop includeIds ph tokens [] false
    let parts := if st.2 ∧ st.1 ≠ [] then st.1 ++ [ph] else st.1
    collapsePh ph (stripChars parts.flatten)

/-- The gap-counting loop of `SparseRenderer.get_coverage_stats`. -/
def gapLoop (wordIds : List Int) : List ParsedToken → Nat → Bool → Nat
  | [], gaps, inGap => if inGap then gaps + 1 else gaps
  | t :: ts, gaps, inGap =>
    if t.id ∈ wordIds then
      gapLoop wordIds ts (if inGap then gaps + 1 else gaps) false
    else
      gapLoop wordIds ts gaps true

/-- `SparseRenderer.get_coverage_stats`. -/
def getCoverageStats (tokens : List ParsedToken) (result : SubgraphResult) :
    CoverageStats :=
  { total_tokens := tokens.length
    included_tokens := result.word_ids.length
    coverage_percent :=
      if 0 < tokens.length then
        (result.word_ids.length : ℚ) / (tokens.length : ℚ) * 100
      else 0
    gap_count := gapLoop result.word_ids tokens 0 false
    zoom_level := result.zoom_level }

/-- Input contract of the engine (spec §3/§6): token ids are dense and
sequential from 0, i.e. each token's `id` equals its list index. -/
def DenseIds (tokens : List ParsedToken) : Prop :=
  ∀ i (h : i < tokens.length), (tokens.get ⟨i, h⟩).id = (i : Int)

instance (tokens : List ParsedToken) : Decidable (DenseIds tokens) := by
  unfold DenseIds
  exact Nat.decidableBallLT _ _

/-- Forest invariant on `children_ids` (spec §3): recorded child ids are
never negative (the source raises `KeyError` otherwise). -/
def WFChildren (tokens : List ParsedToken) : Prop :=
  ∀ t ∈ tokens, ∀ c ∈ t.children_ids, 0 ≤ c

instance (tokens : List ParsedToken) : Decidable (WFChildren tokens) := by
  unfold WFChildren
  infer_instance

/-- The original source text as described by the spec's round-trip claim:
each token's text followed by its trailing whitespace, in order. -/
def sourceText (tokens : List ParsedToken) : List Char :=
  (tokens.map (fun t => t.text ++ t.whitespace_after)).flatten

/-- `p` occurs in `s` at position `k`. -/
def occursAt (p s : List Char) (k : Nat) : Prop := p <+: s.drop k

instance (p s : List Char) (k : Nat) : Decidable (occursAt p s k) := by
  unfold occursAt; infer_instance

/-- Number of positions of `s` at which `p` occurs. -/
def countOccs (p s : List Char) : Nat :=
  (List.range s.length).countP (fun k => decide (occursAt p s k))

/-- Rising-edge counter: the number of maximal runs of `true` in a Boolean
trace, given the previous value. -/
def runCount : Bool → List Bool → Nat
  | _, [] => 0
  | prev, b :: bs => (if b ∧ ¬prev then 1 else 0) + runCount b bs

/-- Number of maximal runs of consecutive tokens excluded from `wordIds`
(the claim-side notion of "gap"). -/
def maximalExcludedRuns (wordIds : List Int) (tokens : List ParsedToken) : Nat :=
  runCount false (tokens.map (fun t => decide (t.id ∉ wordIds)))

/-- Token well-formedness used by the string-level renderer claims: text is
nonempty, whitespace-free and does not contain the placeholder. -/
def GoodText (ph t : List Char) : Prop :=
  t ≠ [] ∧ (∀ c ∈ t, ¬ c.isWhitespace) ∧ ¬ ph <:+: t

/-- Trailing whitespace well-formedness: nonempty, all whitespace. -/
def GoodWS (w : List Char) : Prop :=
  w ≠ [] ∧ ∀ c ∈ w, c.isWhitespace

/-- Placeholder well-formedness: nonempty and whitespace-free. -/
def GoodPh (ph : List Char) : Prop :=
  ph ≠ [] ∧ ∀ c ∈ ph, ¬ c.isWhitespace

instance (ph t : List Char) : Decidable (GoodText ph t) := by
  unfold GoodText
  infer_instance

instance (w : List Char) : Decidable (GoodWS w) := by
  unfold GoodWS
  infer_instance

instance (ph : List Char) : Decidable (GoodPh ph) := by
  unfold GoodPh
  infer_instance

/-- Number of gap-exits performed by the render walk over `ts`, starting
with in-gap flag `g`: counts the excluded→included transitions. -/
def gapExits (includeIds : Finset Int) : Bool → List ParsedToken → Nat
  | _, [] => 0
  | g, t :: ts =>
    if t.id ∈ includeIds then (if g then 1 else 0) + gapExits includeIds false ts
    else gapExits includeIds true ts

/-- Whether the render walk over `ts`, starting with in-gap flag `g`, ends
inside a gap. -/
def finalGap (includeIds : Finset Int) : Bool → List ParsedToken → Bool
  | g, [] => g
  | g, t :: ts =>
    if t.id ∈ includeIds then finalGap includeIds false ts
    else finalGap includeIds true ts

/-- Shape of the `parts` list built by the render loop: a sequence of
`[text, whitespace]` blocks, each optionally preceded by the placeholder
and a single space when the walk leaves a gap; `n` counts the placeholder
parts emitted. -/
inductive Chunks (ph : List Char) : List (List Char) → Nat → Prop
  | nil : Chunks ph [] 0
  | tok : ∀ {ps : List (List Char)} {n : Nat} {t w : List Char},
      Chunks ph ps n → GoodText ph t → GoodWS w → Chunks ph (ps ++ [t, w]) n
  | gap : ∀ {ps : List (List Char)} {n : Nat} {t w : List Char},
      Chunks ph ps n → GoodText ph t → GoodWS w →
      Chunks ph (ps ++ [ph, [' '], t, w]) (n + 1)

/-- Shorthand constructor for concrete example tokens (character offsets and
fine-grained tag are irrelevant to the verified properties and fixed at
defaults). -/
def mkTok (i : Int) (txt ws : List Char) (p d : String) (h : Int)
    (ch : List Int) : ParsedToken :=
  { id := i, text := txt, whitespace_after := ws, is_punct := false
    start_char := 0, end_char := 0, pos := p, tag := "", head_id := h
    dep := d, children_ids := ch }

/-- Concrete example: the parse of "The cat is happy ." with the copula
"is" as AUX root (ids dense from 0). -/
def exTokens : List ParsedToken :=
  [mkTok 0 ['T','h','e'] [' '] "DET" "det" 1 [],
   mkTok 1 ['c','a','t'] [' '] "NOUN" "nsubj" 2 [0],
   mkTok 2 ['i','s'] [' '] "AUX" "ROOT" (-1) [1, 3, 4],
   mkTok 3 ['h','a','p','p','y'] [' '] "ADJ" "acomp" 2 [],
   mkTok 4 ['.'] [' '] "PUNCT" "punct" 2 []]

/-- Concrete example seed selecting the token "cat" (id 1). -/
def exSeedCat : Seed :=
  { id := "s1", start_id := 1, end_id := 1, word_ids := [1], text := ['c','a','t'] }

/-- Concrete example seed selecting the token "happy" (id 3). -/
def exSeedHappy : Seed :=
  { id := "s2", start_id := 3, end_id := 3, word_ids := [3], text := ['h','a','p','p','y'] }

/-- Concrete example: a one-token sequence consisting only of the
root-position copula "is". -/
def exTokensIs : List ParsedToken := [mkTok 0 ['i','s'] [' '] "AUX" "ROOT" (-1) []]

/-- Concrete example seed selecting that copula token. -/
def exSeedIs : Seed :=
  { id := "s", start_id := 0, end_id := 0, word_ids := [0], text := ['i','s'] }

lemma rangeList_eq_nil {a b : Int} (h : b < a) : rangeList a b = [] := by
  unfold rangeList
  have h0 : (b + 1 - a).toNat = 0 := by omega
  rw [h0]
  rfl

lemma rangeList_ne_nil {a b : Int} (h : a ≤ b) : rangeList a b ≠ [] := by
  unfold rangeList
  intro hc
  have := congrArg List.length hc
  simp only [List.length_map, List.length_range, List.length_nil] at this
  omega

lemma mem_rangeList {a b i : Int} : i ∈ rangeList a b ↔ a ≤ i ∧ i ≤ b := by
  unfold rangeList
  simp only [List.mem_map, List.mem_range]
  constructor
  · rintro ⟨k, hk, rfl⟩
    omega
  · rintro ⟨h1, h2⟩
    exact ⟨(i - a).toNat, by omega, by omega⟩

lemma selectRange_word_ids (tokens : List ParsedToken) (s e : Int) :
    (selectRange tokens s e).word_ids = rangeList s e := rfl

lemma selectRange_text (tokens : List ParsedToken) (s e : Int) :
    (selectRange tokens s e).text =
      buildText (tokens.filter (fun t => t.id ∈ rangeList s e)) := rfl

/-- C10: `get_coverage_stats` on an empty token sequence returns
`total_tokens = 0`, `coverage_percent = 0` and `gap_count = 0` for every
`SubgraphResult`, instead of dividing by zero. -/
theorem C10_coverage_stats_empty (result : SubgraphResult) :
    getCoverageStats [] result =
      { total_tokens := 0
        included_tokens := result.word_ids.length
        coverage_percent := 0
        gap_count := 0
        zoom_level := result.zoom_level } := by
  simp [getCoverageStats, gapLoop]

/-- C5 counterexample: `select_range` on the malformed range
`start_id = 5 > 2 = end_id` does not fail with an `InvalidRange` error — it
returns a perfectly ordinary `Seed` (with empty `word_ids` and `text`).
No `InvalidRange` condition exists anywhere in the source. -/
theorem C5_counterexample :
    selectRange [] 5 2 =
      { id := "", start_id := 5, end_id := 2, word_ids := [], text := []
        sentence_start_id := some 0, sentence_end_id := some (-1)
        clause_root_id := none } := by
  rfl

/-- C5 amended: `select_range` performs no range validation and never
signals an error.  For every range (malformed included) it returns a `Seed`
whose `word_ids` is the materialized `range(start_id, end_id + 1)`; when
`start_id > end_id` this yields empty `word_ids` and empty `text`, and
negative ids are accepted silently. -/
theorem C5_amended (tokens : List ParsedToken) (s e : Int) :
    (selectRange tokens s e).word_ids = rangeList s e ∧
      (e < s →
        (selectRange tokens s e).word_ids = [] ∧ (selectRange tokens s e).text = []) := by
  refine ⟨rfl, fun h => ?_⟩
  have hr : rangeList s e = [] := rangeList_eq_nil h
  refine ⟨by rw [selectRange_word_ids, hr], ?_⟩
  rw [selectRange_text]
  have hfilter : tokens.filter (fun t => t.id ∈ rangeList s e) = [] := by
    simp [hr]
  rw [hfilter]
  rfl

theorem C5_amended_witness :
    (2 : Int) < 5 ∧
      (selectRange [] 5 2).word_ids = [] ∧ (selectRange [] 5 2).text = [] :=
  ⟨by decide, (C5_amended [] 5 2).2 (by decide)⟩

/-- C6 counterexample: `select_range` over an empty token sequence with the
well-formed range `start_id = end_id = 0` returns `word_ids = [0]`, not
empty `word_ids` — the materialized range is built from the ids alone,
never intersected with the (empty) token sequence. -/
theorem C6_counterexample : (selectRange [] 0 0).word_ids = [0] := by
  rfl

/-- C6 amended: for every well-formed range (`0 ≤ start_id ≤ end_id`),
`select_range` on an empty token sequence does not fail and returns a
`Seed` whose `text` is empty, but whose `word_ids` is the full materialized
range `[start_id .. end_id]` — which is nonempty, not empty. -/
theorem C6_amended (s e : Int) (hs : 0 ≤ s) (hse : s ≤ e) :
    (selectRange [] s e).text = [] ∧
      (selectRange [] s e).word_ids = rangeList s e ∧ rangeList s e ≠ [] := by
  refine ⟨?_, rfl, rangeList_ne_nil hse⟩
  rw [selectRange_text]
  rfl

theorem C6_amended_witness :
    (0 : Int) ≤ 0 ∧ (0 : Int) ≤ 1 ∧
      ((selectRange [] 0 1).text = [] ∧
        (selectRange [] 0 1).word_ids = rangeList 0 1 ∧ rangeList 0 1 ≠ []) :=
  ⟨by decide, by decide, C6_amended 0 1 (by decide) (by decide)⟩

lemma dropWhile_append_all {p : Char → Bool} {x y : List Char}
    (h : ∀ c ∈ x, p c) : (x ++ y).dropWhile p = y.dropWhile p := by
  induction x with
  | nil => rfl
  | cons a l ih =>
    rw [List.cons_append, List.dropWhile_cons_of_pos (h a (by simp))]
    exact ih (fun c hc => h c (by simp [hc]))

lemma dropWhile_append_keep {p : Char → Bool} {x y : List Char}
    (h : ∃ c ∈ x, ¬ p c) : (x ++ y).dropWhile p = x.dropWhile p ++ y := by
  induction x with
  | nil => simp at h
  | cons a l ih =>
    by_cases hp : p a
    · rw [List.cons_append, List.dropWhile_cons_of_pos hp, List.dropWhile_cons_of_pos hp]
      apply ih
      obtain ⟨c, hc, hcp⟩ := h
      rcases List.mem_cons.mp hc with rfl | hcl
      · exact absurd hp hcp
      · exact ⟨c, hcl, hcp⟩
    · rw [List.cons_append, List.dropWhile_cons_of_neg hp, List.dropWhile_cons_of_neg hp,
        List.cons_append]

lemma dropWhile_eq_self_of_head {p : Char → Bool} {x : List Char}
    (h : ∀ c ∈ x, ¬ p c) : x.dropWhile p = x := by
  cases x with
  | nil => rfl
  | cons a l => exact List.dropWhile_cons_of_neg (h a (by simp))

lemma dropTrailingWS_append_all {x w : List Char}
    (h : ∀ c ∈ w, c.isWhitespace) : dropTrailingWS (x ++ w) = dropTrailingWS x := by
  unfold dropTrailingWS
  rw [List.reverse_append, dropWhile_append_all (fun c hc => h c (List.mem_reverse.mp hc))]

lemma dropTrailingWS_append_keep {x R : List Char}
    (h : ∃ c ∈ R, ¬ c.isWhitespace) : dropTrailingWS (x ++ R) = x ++ dropTrailingWS R := by
  unfold dropTrailingWS
  obtain ⟨c, hc, hcp⟩ := h
  rw [List.reverse_append, dropWhile_append_keep ⟨c, List.mem_reverse.mpr hc, hcp⟩,
    List.reverse_append, List.reverse_reverse]

lemma dropTrailingWS_of_noWS {x : List Char}
    (h : ∀ c ∈ x, ¬ c.isWhitespace) : dropTrailingWS x = x := by
  unfold dropTrailingWS
  rw [dropWhile_eq_self_of_head (fun c hc => h c (List.mem_reverse.mp hc)),
    List.reverse_reverse]

lemma sourceText_cons (t : ParsedToken) (ts : List ParsedToken) :
    sourceText (t :: ts) = t.text ++ t.whitespace_after ++ sourceText ts := by
  simp [sourceText, List.append_assoc]

lemma dropTrailing_sourceText :
    ∀ (tokens : List ParsedToken), tokens ≠ [] →
    (∀ t ∈ tokens, t.text ≠ [] ∧ ∀ c ∈ t.text, ¬ c.isWhitespace) →
    (∀ t ∈ tokens, ∀ c ∈ t.whitespace_after, c.isWhitespace) →
    dropTrailingWS (sourceText tokens) = joinWithWs tokens
  | [], hne, _, _ => absurd rfl hne
  | [t], _, htext, hws => by
    rw [sourceText_cons]
    have h0 : sourceText ([] : List ParsedToken) = [] := rfl
    rw [h0, List.append_nil,
      dropTrailingWS_append_all (hws t (by simp)),
      dropTrailingWS_of_noWS (htext t (by simp)).2]
    rfl
  | t :: u :: us, _, htext, hws => by
    rw [sourceText_cons]
    have hu : u.text ≠ [] := (htext u (by simp)).1
    obtain ⟨c, cs, hc⟩ := List.exists_cons_of_ne_nil hu
    have hmem : c ∈ sourceText (u :: us) := by
      rw [sourceText_cons, hc]; simp
    have hcws : ¬ c.isWhitespace := by
      apply (htext u (by simp)).2
      rw [hc]; simp
    rw [dropTrailingWS_append_keep ⟨c, hmem, hcws⟩,
      dropTrailing_sourceText (u :: us) (by simp)
        (fun x hx => htext x (List.mem_cons_of_mem t hx))
        (fun x hx => hws x (List.mem_cons_of_mem t hx))]
    rfl

lemma dropLeadingWS_sourceText (t : ParsedToken) (ts : List ParsedToken)
    (hne : t.text ≠ []) (hnws : ∀ c ∈ t.text, ¬ c.isWhitespace) :
    dropLeadingWS (sourceText (t :: ts)) = sourceText (t :: ts) := by
  obtain ⟨a, as, ha⟩ := List.exists_cons_of_ne_nil hne
  have ha' : ¬ a.isWhitespace := hnws a (by rw [ha]; simp)
  unfold dropLeadingWS
  rw [sourceText_cons, ha, List.cons_append, List.cons_append,
    List.dropWhile_cons_of_neg (by simpa using ha')]

lemma filter_full_range (tokens : List ParsedToken) (hD : DenseIds tokens) :
    tokens.filter (fun t => t.id ∈ rangeList 0 ((tokens.length : Int) - 1)) = tokens := by
  apply List.filter_eq_self.mpr
  intro t ht
  obtain ⟨⟨i, hlt⟩, rfl⟩ := List.mem_iff_get.mp ht
  have hid := hD i hlt
  simp only [decide_eq_true_eq, hid, mem_rangeList]
  omega

lemma insertById_of_le {t : ParsedToken} {ts : List ParsedToken}
    (h : ∀ u ∈ ts, t.id ≤ u.id) : insertById t ts = t :: ts := by
  cases ts with
  | nil => rfl
  | cons u us => exact if_pos (h u (by simp))

lemma sortById_eq_self {l : List ParsedToken}
    (h : l.Pairwise (fun a b => a.id ≤ b.id)) : sortById l = l := by
  induction l with
  | nil => rfl
  | cons t ts ih =>
    rw [List.pairwise_cons] at h
    show insertById t (sortById ts) = t :: ts
    rw [ih h.2, insertById_of_le h.1]

lemma dense_pairwise {tokens : List ParsedToken} (hD : DenseIds tokens) :
    tokens.Pairwise (fun a b => a.id ≤ b.id) := by
  rw [List.pairwise_iff_get]
  intro i j hij
  rw [hD i i.isLt, hD j j.isLt]
  exact_mod_cast Nat.le_of_lt hij

/-- C7: for every non-empty token sequence (dense ids; token texts nonempty
and whitespace-free; trailing-whitespace fields all-whitespace), the seed
created by `select_range` over the whole sequence has `text` equal to the
original source text — the concatenation of each token's text and trailing
whitespace — with only leading/trailing whitespace trimmed. -/
theorem C7_round_trip (tokens : List ParsedToken) (hne : tokens ≠ [])
    (hD : DenseIds tokens)
    (htext : ∀ t ∈ tokens, t.text ≠ [] ∧ ∀ c ∈ t.text, ¬ c.isWhitespace)
    (hws : ∀ t ∈ tokens, ∀ c ∈ t.whitespace_after, c.isWhitespace) :
    (selectRange tokens 0 ((tokens.length : Int) - 1)).text
      = stripChars (sourceText tokens) := by
  rw [selectRange_text, filter_full_range tokens hD]
  unfold buildText
  rw [if_neg hne, sortById_eq_self (dense_pairwise hD)]
  unfold stripChars
  obtain ⟨t, ts, rfl⟩ := List.exists_cons_of_ne_nil hne
  rw [dropLeadingWS_sourceText t ts (htext t (by simp)).1 (htext t (by simp)).2,
    dropTrailing_sourceText (t :: ts) (by simp) htext hws]

theorem C7_round_trip_witness :
    exTokens ≠ [] ∧ DenseIds exTokens ∧
      (∀ t ∈ exTokens, t.text ≠ [] ∧ ∀ c ∈ t.text, ¬ c.isWhitespace) ∧
      (∀ t ∈ exTokens, ∀ c ∈ t.whitespace_after, c.isWhitespace) ∧
      (selectRange exTokens 0 ((exTokens.length : Int) - 1)).text
        = stripChars (sourceText exTokens) :=
  ⟨by decide, by decide, by decide, by decide,
    C7_round_trip exTokens (by decide) (by decide) (by decide) (by decide)⟩

lemma mem_foldl_union (seeds : List Seed) :
    ∀ (acc : Finset Int) (i : Int),
      i ∈ seeds.foldl (fun a s => a ∪ s.word_ids.toFinset) acc ↔
        i ∈ acc ∨ ∃ s ∈ seeds, i ∈ s.word_ids := by
  induction seeds with
  | nil => intro acc i; simp
  | cons s ss ih =>
    intro acc i
    rw [List.foldl_cons, ih]
    simp only [Finset.mem_union, List.mem_toFinset, List.mem_cons]
    constructor
    · rintro ((h | h) | ⟨u, hu, hi⟩)
      · exact Or.inl h
      · exact Or.inr ⟨s, Or.inl rfl, h⟩
      · exact Or.inr ⟨u, Or.inr hu, hi⟩
    · rintro (h | ⟨u, (rfl | hu), hi⟩)
      · exact Or.inl (Or.inl h)
      · exact Or.inl (Or.inr hi)
      · exact Or.inr ⟨u, hu, hi⟩

lemma mem_seedUnionIds {seeds : List Seed} {i : Int} :
    i ∈ seedUnionIds seeds ↔ ∃ s ∈ seeds, i ∈ s.word_ids := by
  unfold seedUnionIds
  rw [mem_foldl_union]
  simp

lemma expandNHops_zero (adj : Int → Finset Int) (keys : Finset Int) (maxId : Int)
    (cur exp : Finset Int) : expandNHops adj keys maxId cur exp 0 = exp := rfl

lemma expandNHops_succ (adj : Int → Finset Int) (keys : Finset Int) (maxId : Int)
    (cur exp : Finset Int) (n : Nat) :
    expandNHops adj keys maxId cur exp (n + 1) =
      (fun nf => if nf = ∅ then exp ∪ nf else expandNHops adj keys maxId nf (exp ∪ nf) n)
        ((cur.filter (fun i => i ∈ keys)).biUnion
          (fun i => (adj i).filter (fun j => j ∉ exp ∧ j < maxId))) := rfl

lemma expand_subset_left (adj : Int → Finset Int) (keys : Finset Int) (maxId : Int) :
    ∀ (n : Nat) (cur exp : Finset Int), exp ⊆ expandNHops adj keys maxId cur exp n := by
  intro n
  induction n with
  | zero => intro cur exp; rw [expandNHops_zero]
  | succ n ih =>
    intro cur exp
    rw [expandNHops_succ]
    by_cases hnf : (cur.filter (fun i => i ∈ keys)).biUnion
        (fun i => (adj i).filter (fun j => j ∉ exp ∧ j < maxId)) = ∅
    · simp only [hnf, if_pos rfl]
      exact Finset.subset_union_left
    · simp only [if_neg hnf]
      exact Finset.Subset.trans Finset.subset_union_left (ih _ _)

lemma expand_mono_zoom (adj : Int → Finset Int) (keys : Finset Int) (maxId : Int) :
    ∀ (n : Nat) (cur exp : Finset Int),
      expandNHops adj keys maxId cur exp n ⊆ expandNHops adj keys maxId cur exp (n + 1) := by
  intro n
  induction n with
  | zero =>
    intro cur exp
    rw [expandNHops_zero, expandNHops_succ]
    by_cases hnf : (cur.filter (fun i => i ∈ keys)).biUnion
        (fun i => (adj i).filter (fun j => j ∉ exp ∧ j < maxId)) = ∅
    · simp only [hnf, if_pos rfl]
      exact Finset.subset_union_left
    · simp only [if_neg hnf]
      exact Finset.Subset.trans Finset.subset_union_left (expand_subset_left _ _ _ _ _ _)
  | succ n ih =>
    intro cur exp
    rw [expandNHops_succ adj keys maxId cur exp n, expandNHops_succ adj keys maxId cur exp (n + 1)]
    by_cases hnf : (cur.filter (fun i => i ∈ keys)).biUnion
        (fun i => (adj i).filter (fun j => j ∉ exp ∧ j < maxId)) = ∅
    · simp only [hnf, eq_self_iff_true, if_true]
      exact Finset.Subset.refl _
    · simp only [if_neg hnf]
      exact ih _ _

lemma expand_bound (adj : Int → Finset Int) (keys : Finset Int) (maxId : Int)
    (hadj : ∀ k j, j ∈ adj k → 0 ≤ j) :
    ∀ (n : Nat) (cur exp : Finset Int) (j : Int),
      j ∈ expandNHops adj keys maxId cur exp n → j ∈ exp ∨ (0 ≤ j ∧ j < maxId) := by
  intro n
  induction n with
  | zero => intro cur exp j hj; rw [expandNHops_zero] at hj; exact Or.inl hj
  | succ n ih =>
    intro cur exp j hj
    rw [expandNHops_succ] at hj
    have hnf : ∀ x, x ∈ (cur.filter (fun i => i ∈ keys)).biUnion
        (fun i => (adj i).filter (fun j => j ∉ exp ∧ j < maxId)) → 0 ≤ x ∧ x < maxId := by
      intro x hx
      obtain ⟨i, _, hxi⟩ := Finset.mem_biUnion.mp hx
      rw [Finset.mem_filter] at hxi
      exact ⟨hadj i x hxi.1, hxi.2.2⟩
    by_cases hempty : (cur.filter (fun i => i ∈ keys)).biUnion
        (fun i => (adj i).filter (fun j => j ∉ exp ∧ j < maxId)) = ∅
    · simp only [hempty, eq_self_iff_true, if_true, Finset.union_empty] at hj
      exact Or.inl hj
    · simp only [if_neg hempty] at hj
      rcases ih _ _ j hj with h | h
      · rcases Finset.mem_union.mp h with h | h
        · exact Or.inl h
        · exact Or.inr (hnf j h)
      · exact Or.inr h

lemma extract_word_ids_skip (instS : Bool) (tokens : List ParsedToken) (seeds : List Seed)
    (zoom : Nat) (ov : Option Bool) (hsk : ov.getD instS = true) (hne : seeds ≠ []) :
    (extract instS tokens seeds zoom ov).word_ids =
      (expandNHops (buildAdjacency tokens (copulaIds tokens))
          ((tokens.map (fun t => t.id)).toFinset) (tokens.length : Int)
          (seedUnionIds seeds) (seedUnionIds seeds) zoom \ copulaIds tokens).sort (· ≤ ·) := by
  unfold extract
  rw [if_neg hne]
  simp only [hsk, if_true]

lemma extract_word_ids_noskip (instS : Bool) (tokens : List ParsedToken) (seeds : List Seed)
    (zoom : Nat) (ov : Option Bool) (hsk : ov.getD instS = false) (hne : seeds ≠ []) :
    (extract instS tokens seeds zoom ov).word_ids =
      (expandNHops (buildAdjacency tokens ∅)
          ((tokens.map (fun t => t.id)).toFinset) (tokens.length : Int)
          (seedUnionIds seeds) (seedUnionIds seeds) zoom).sort (· ≤ ·) := by
  unfold extract
  rw [if_neg hne]
  simp only [hsk, Bool.false_eq_true, if_false]

/-- C1 counterexample: with transparent-node handling enabled, a seed whose
`word_ids` contains a root-position copula is *not* a subset of the
extraction result — `extract` subtracts all copula ids from the result
after expansion, including ids contributed by the seeds themselves.  Here
the single token "is" (AUX, ROOT) is seeded at zoom level 0 and the result
is empty. -/
theorem C1_counterexample :
    ¬ (∀ i ∈ exSeedIs.word_ids,
        i ∈ (extract true exTokensIs [exSeedIs] 0 none).word_ids) := by
  intro h
  have h0 := h 0 (by decide)
  rw [extract_word_ids_skip true exTokensIs [exSeedIs] 0 none (by decide) (by decide),
    Finset.mem_sort] at h0
  revert h0
  decide

/-- C1 amended: for every token sequence, seed list and zoom level ≥ 0,
each seed's `word_ids` is a subset of the result's `word_ids` *except for
copula ids when transparent-node handling is enabled*: a seed id survives
into the result whenever it is not a transparent (root-position copula)
token id, for either setting of the transparency flag. -/
theorem C1_seed_inclusion_amended (instS : Bool) (tokens : List ParsedToken)
    (seeds : List Seed) (zoom : Nat) (ov : Option Bool) (s : Seed) (hs : s ∈ seeds)
    (i : Int) (hi : i ∈ s.word_ids)
    (hcop : ov.getD instS = true → i ∉ copulaIds tokens) :
    i ∈ (extract instS tokens seeds zoom ov).word_ids := by
  have hne : seeds ≠ [] := List.ne_nil_of_mem hs
  have hiU : i ∈ seedUnionIds seeds := mem_seedUnionIds.mpr ⟨s, hs, hi⟩
  cases hsk : ov.getD instS with
  | true =>
    rw [extract_word_ids_skip instS tokens seeds zoom ov hsk hne, Finset.mem_sort]
    exact Finset.mem_sdiff.mpr ⟨expand_subset_left _ _ _ _ _ _ hiU, hcop hsk⟩
  | false =>
    rw [extract_word_ids_noskip instS tokens seeds zoom ov hsk hne, Finset.mem_sort]
    exact expand_subset_left _ _ _ _ _ _ hiU

theorem C1_seed_inclusion_witness :
    exSeedCat ∈ [exSeedCat] ∧ (1 : Int) ∈ exSeedCat.word_ids ∧
      (1 : Int) ∈ (extract true exTokens [exSeedCat] 1 none).word_ids :=
  ⟨by decide, by decide,
    C1_seed_inclusion_amended true exTokens [exSeedCat] 1 none exSeedCat (by decide)
      1 (by decide) (fun _ => by decide)⟩

/-- C3: extraction is deterministic and insensitive to seed insertion
order — for a fixed token sequence, zoom level and transparency flag, any
permutation of the seed list yields identical `word_ids`. -/
theorem C3_determinism (instS : Bool) (tokens : List ParsedToken) (zoom : Nat)
    (ov : Option Bool) (seeds1 seeds2 : List Seed) (hperm : seeds1.Perm seeds2) :
    (extract instS tokens seeds1 zoom ov).word_ids
      = (extract instS tokens seeds2 zoom ov).word_ids := by
  have hU : seedUnionIds seeds1 = seedUnionIds seeds2 := by
    apply Finset.ext
    intro i
    simp only [mem_seedUnionIds]
    constructor
    · rintro ⟨s, hsmem, hi⟩
      exact ⟨s, hperm.mem_iff.mp hsmem, hi⟩
    · rintro ⟨s, hsmem, hi⟩
      exact ⟨s, hperm.mem_iff.mpr hsmem, hi⟩
  by_cases hne : seeds1 = []
  · subst hne
    have h2 : seeds2 = [] := hperm.symm.eq_nil
    subst h2
    rfl
  · have hne2 : seeds2 ≠ [] := by
      intro h2
      rw [h2] at hperm
      exact hne hperm.eq_nil
    cases hsk : ov.getD instS with
    | true =>
      rw [extract_word_ids_skip _ _ _ _ _ hsk hne,
        extract_word_ids_skip _ _ _ _ _ hsk hne2, hU]
    | false =>
      rw [extract_word_ids_noskip _ _ _ _ _ hsk hne,
        extract_word_ids_noskip _ _ _ _ _ hsk hne2, hU]

theorem C3_determinism_witness :
    ([exSeedCat, exSeedHappy] : List Seed).Perm [exSeedHappy, exSeedCat] ∧
      (extract false exTokens [exSeedCat, exSeedHappy] 1 none).word_ids
        = (extract false exTokens [exSeedHappy, exSeedCat] 1 none).word_ids :=
  ⟨List.Perm.swap _ _ _,
    C3_determinism false exTokens 1 none _ _ (List.Perm.swap _ _ _)⟩

/-- C4: extraction is monotone in the zoom level — for fixed tokens, seeds
and transparency flag, every id in the result at zoom `k` is in the result
at zoom `k + 1`. -/
theorem C4_monotonicity (instS : Bool) (tokens : List ParsedToken)
    (seeds : List Seed) (zoom : Nat) (ov : Option Bool) :
    ∀ i ∈ (extract instS tokens seeds zoom ov).word_ids,
      i ∈ (extract instS tokens seeds (zoom + 1) ov).word_ids := by
  intro i hi
  by_cases hne : seeds = []
  · subst hne
    simp [extract] at hi
  · cases hsk : ov.getD instS with
    | true =>
      rw [extract_word_ids_skip _ _ _ _ _ hsk hne, Finset.mem_sort] at hi ⊢
      have hmem := Finset.mem_sdiff.mp hi
      exact Finset.mem_sdiff.mpr ⟨expand_mono_zoom _ _ _ _ _ _ hmem.1, hmem.2⟩
    | false =>
      rw [extract_word_ids_noskip _ _ _ _ _ hsk hne, Finset.mem_sort] at hi ⊢
      exact expand_mono_zoom _ _ _ _ _ _ hi

theorem C4_monotonicity_witness :
    (1 : Int) ∈ (extract false exTokens [exSeedCat] 0 none).word_ids ∧
      (1 : Int) ∈ (extract false exTokens [exSeedCat] 1 none).word_ids :=
  have h1 : (1 : Int) ∈ (extract false exTokens [exSeedCat] 0 none).word_ids := by
    rw [extract_word_ids_noskip false exTokens [exSeedCat] 0 none (by decide) (by decide),
      Finset.mem_sort]
    decide
  ⟨h1, C4_monotonicity false exTokens [exSeedCat] 0 none 1 h1⟩

lemma mem_addDirEdge {adj : Int → Finset Int} {i j k x : Int}
    (h : x ∈ addDirEdge adj i j k) : x ∈ adj k ∨ (k = i ∧ x = j) := by
  unfold addDirEdge at h
  by_cases hk : k = i
  · rw [if_pos hk] at h
    rcases Finset.mem_insert.mp h with rfl | h
    · exact Or.inr ⟨hk, rfl⟩
    · exact Or.inl h
  · rw [if_neg hk] at h
    exact Or.inl h

lemma mem_addEdge {adj : Int → Finset Int} {i j k x : Int}
    (h : x ∈ addEdge adj i j k) :
    x ∈ adj k ∨ (k = i ∧ x = j) ∨ (k = j ∧ x = i) := by
  unfold addEdge at h
  rcases mem_addDirEdge h with h | ⟨hk, hx⟩
  · rcases mem_addDirEdge h with h | ⟨hk, hx⟩
    · exact Or.inl h
    · exact Or.inr (Or.inl ⟨hk, hx⟩)
  · exact Or.inr (Or.inr ⟨hk, hx⟩)

lemma addDirEdge_subset (adj : Int → Finset Int) (i j k : Int) :
    adj k ⊆ addDirEdge adj i j k := by
  unfold addDirEdge
  by_cases hk : k = i
  · rw [if_pos hk]
    exact Finset.subset_insert _ _
  · rw [if_neg hk]

lemma addEdge_subset (adj : Int → Finset Int) (i j k : Int) :
    adj k ⊆ addEdge adj i j k :=
  Finset.Subset.trans (addDirEdge_subset adj i j k) (addDirEdge_subset _ j i k)

lemma addEdge_mem_fst (adj : Int → Finset Int) (i j : Int) : j ∈ addEdge adj i j i := by
  unfold addEdge addDirEdge
  by_cases hij : i = j
  · simp [hij]
  · simp [hij, Ne.symm hij]

lemma addEdge_mem_snd (adj : Int → Finset Int) (i j : Int) : i ∈ addEdge adj i j j := by
  unfold addEdge addDirEdge
  simp

lemma foldl_step_subset {α : Type} (g : (Int → Finset Int) → α → (Int → Finset Int))
    (hg : ∀ a x k, a k ⊆ g a x k) :
    ∀ (l : List α) (a : Int → Finset Int) (k : Int), a k ⊆ (l.foldl g a) k := by
  intro l
  induction l with
  | nil => intro a k; exact Finset.Subset.refl _
  | cons x xs ih =>
    intro a k
    rw [List.foldl_cons]
    exact Finset.Subset.trans (hg a x k) (ih (g a x) k)

lemma foldl_preserve {α β : Type} {Q : β → Prop} (f : β → α → β)
    (hpres : ∀ acc x, Q acc → Q (f acc x)) :
    ∀ (l : List α) (acc : β), Q acc → Q (l.foldl f acc) := by
  intro l
  induction l with
  | nil => intro acc h; exact h
  | cons x xs ih => intro acc h; exact ih (f acc x) (hpres acc x h)

lemma foldl_establish {α β : Type} {Q : β → Prop} (f : β → α → β) (a : α)
    (hpres : ∀ acc x, Q acc → Q (f acc x)) (hstep : ∀ acc, Q (f acc a)) :
    ∀ (l : List α) (acc : β), a ∈ l → Q (l.foldl f acc) := by
  intro l
  induction l with
  | nil => intro acc h; simp at h
  | cons x xs ih =>
    intro acc hmem
    rw [List.foldl_cons]
    rcases List.mem_cons.mp hmem with rfl | hmem
    · exact foldl_preserve f hpres xs (f acc a) (hstep acc)
    · exact ih (f acc x) hmem

lemma sibStep_subset (tokens : List ParsedToken) (transp : Finset Int)
    (adj : Int → Finset Int) (t : ParsedToken) (k : Int) :
    adj k ⊆ sibStep tokens transp adj t k := by
  unfold sibStep
  by_cases hg : t.head_id ∈ transp ∧ 0 ≤ t.head_id
  · rw [if_pos hg]
    cases hf : tokens.find? (fun u => u.id == t.head_id) with
    | none => exact Finset.Subset.refl _
    | some tt =>
      apply foldl_step_subset
      intro a x k'
      by_cases hx : x ≠ t.id ∧ x < (tokens.length : Int)
      · rw [if_pos hx]
        exact addEdge_subset _ _ _ _
      · rw [if_neg hx]
  · rw [if_neg hg]

lemma headStep_subset (tokens : List ParsedToken) (transp : Finset Int)
    (adj : Int → Finset Int) (t : ParsedToken) (k : Int) :
    adj k ⊆ headStep tokens transp adj t k := by
  unfold headStep
  by_cases hg : (0 ≤ t.head_id ∧ t.head_id < (tokens.length : Int)) ∧ t.head_id ∉ transp
  · rw [if_pos hg]
    exact addEdge_subset _ _ _ _
  · rw [if_neg hg]

lemma childStep_subset (tokens : List ParsedToken) (transp : Finset Int)
    (adj : Int → Finset Int) (t : ParsedToken) (k : Int) :
    adj k ⊆ childStep tokens transp adj t k := by
  unfold childStep
  apply foldl_step_subset
  intro a x k'
  by_cases hx : x < (tokens.length : Int) ∧ x ∉ transp
  · rw [if_pos hx]
    exact addEdge_subset _ _ _ _
  · rw [if_neg hx]

lemma processToken_subset (tokens : List ParsedToken) (transp : Finset Int)
    (adj : Int → Finset Int) (t : ParsedToken) (k : Int) :
    adj k ⊆ processToken tokens transp adj t k := by
  unfold processToken
  exact Finset.Subset.trans (sibStep_subset tokens transp adj t k)
    (Finset.Subset.trans (headStep_subset tokens transp _ t k)
      (childStep_subset tokens transp _ t k))

lemma dense_mem_id_eq {tokens : List ParsedToken} (hD : DenseIds tokens)
    {t : ParsedToken} (ht : t ∈ tokens) :
    ∃ (k : Nat) (hk : k < tokens.length), tokens.get ⟨k, hk⟩ = t ∧ t.id = (k : Int) := by
  obtain ⟨⟨k, hk⟩, rfl⟩ := List.mem_iff_get.mp ht
  exact ⟨k, hk, rfl, hD k hk⟩

lemma dense_id_nonneg {tokens : List ParsedToken} (hD : DenseIds tokens)
    {t : ParsedToken} (ht : t ∈ tokens) : 0 ≤ t.id := by
  obtain ⟨k, hk, _, hid⟩ := dense_mem_id_eq hD ht
  rw [hid]
  exact Int.ofNat_nonneg k

lemma foldl_guard_nonneg {p : Int → Prop} [DecidablePred p] (i : Int) (hi : 0 ≤ i) :
    ∀ (l : List Int), (∀ c ∈ l, 0 ≤ c) →
    ∀ (adj : Int → Finset Int), (∀ k j, j ∈ adj k → 0 ≤ j) →
    ∀ k j, j ∈ (l.foldl (fun a s => if p s then addEdge a i s else a) adj) k → 0 ≤ j := by
  intro l
  induction l with
  | nil => intro _ adj hadj k j hj; exact hadj k j hj
  | cons c cs ih =>
    intro hl adj hadj k j hj
    rw [List.foldl_cons] at hj
    refine ih (fun x hx => hl x (List.mem_cons_of_mem c hx)) _ ?_ k j hj
    intro k' j' hj'
    by_cases hp : p c
    · rw [if_pos hp] at hj'
      rcases mem_addEdge hj' with h | ⟨_, rfl⟩ | ⟨_, rfl⟩
      · exact hadj k' j' h
      · exact hl _ (List.mem_cons_self _ _)
      · exact hi
    · rw [if_neg hp] at hj'
      exact hadj k' j' hj'

lemma sibStep_nonneg {tokens : List ParsedToken} {transp : Finset Int}
    (hW : WFChildren tokens) {t : ParsedToken} (htid : 0 ≤ t.id)
    {adj : Int → Finset Int} (hadj : ∀ k j, j ∈ adj k → 0 ≤ j) :
    ∀ k j, j ∈ sibStep tokens transp adj t k → 0 ≤ j := by
  intro k j hj
  unfold sibStep at hj
  by_cases hg : t.head_id ∈ transp ∧ 0 ≤ t.head_id
  · rw [if_pos hg] at hj
    cases hf : tokens.find? (fun u => u.id == t.head_id) with
    | none => rw [hf] at hj; exact hadj k j hj
    | some tt =>
      rw [hf] at hj
      have htt : tt ∈ tokens := List.mem_of_find?_eq_some hf
      exact foldl_guard_nonneg t.id htid tt.children_ids (hW tt htt) adj hadj k j hj
  · rw [if_neg hg] at hj
    exact hadj k j hj

lemma headStep_nonneg {tokens : List ParsedToken} {transp : Finset Int}
    {t : ParsedToken} (htid : 0 ≤ t.id)
    {adj : Int → Finset Int} (hadj : ∀ k j, j ∈ adj k → 0 ≤ j) :
    ∀ k j, j ∈ headStep tokens transp adj t k → 0 ≤ j := by
  intro k j hj
  unfold headStep at hj
  by_cases hg : (0 ≤ t.head_id ∧ t.head_id < (tokens.length : Int)) ∧ t.head_id ∉ transp
  · rw [if_pos hg] at hj
    rcases mem_addEdge hj with h | ⟨_, rfl⟩ | ⟨_, rfl⟩
    · exact hadj k j h
    · exact hg.1.1
    · exact htid
  · rw [if_neg hg] at hj
    exact hadj k j hj

lemma childStep_nonneg {tokens : List ParsedToken} {transp : Finset Int}
    (hW : WFChildren tokens) {t : ParsedToken} (ht : t ∈ tokens) (htid : 0 ≤ t.id)
    {adj : Int → Finset Int} (hadj : ∀ k j, j ∈ adj k → 0 ≤ j) :
    ∀ k j, j ∈ childStep tokens transp adj t k → 0 ≤ j := by
  intro k j hj
  unfold childStep at hj
  exact foldl_guard_nonneg t.id htid t.children_ids (hW t ht) adj hadj k j hj

lemma buildAdjacency_nonneg (tokens : List ParsedToken) (transp : Finset Int)
    (hD : DenseIds tokens) (hW : WFChildren tokens) :
    ∀ k j, j ∈ buildAdjacency tokens transp k → 0 ≤ j := by
  unfold buildAdjacency
  have main : ∀ (l : List ParsedToken), (∀ t ∈ l, t ∈ tokens) →
      ∀ (adj : Int → Finset Int), (∀ k j, j ∈ adj k → 0 ≤ j) →
      ∀ k j, j ∈ (l.foldl (processToken tokens transp) adj) k → 0 ≤ j := by
    intro l
    induction l with
    | nil => intro _ adj hadj k j hj; exact hadj k j hj
    | cons t ts ih =>
      intro hl adj hadj k j hj
      rw [List.foldl_cons] at hj
      refine ih (fun x hx => hl x (List.mem_cons_of_mem t hx)) _ ?_ k j hj
      have htmem : t ∈ tokens := hl t (by simp)
      have htid : 0 ≤ t.id := dense_id_nonneg hD htmem
      intro k' j' hj'
      unfold processToken at hj'
      exact childStep_nonneg hW htmem htid
        (headStep_nonneg htid (sibStep_nonneg hW htid hadj)) k' j' hj'
  intro k j hj
  refine main tokens (fun t ht => ht) _ ?_ k j hj
  intro k' j' hj'
  simp at hj'

/-- C9: every id that breadth-first expansion adds beyond the seeds refers
to a token that exists — for dense-id token sequences with well-formed
`children_ids`, every id in the extraction result that is in no seed's
`word_ids` satisfies `0 ≤ id < len(tokens)`. -/
theorem C9_expansion_in_range (instS : Bool) (tokens : List ParsedToken)
    (seeds : List Seed) (zoom : Nat) (ov : Option Bool)
    (hD : DenseIds tokens) (hW : WFChildren tokens) :
    ∀ i ∈ (extract instS tokens seeds zoom ov).word_ids,
      i ∉ seedUnionIds seeds → 0 ≤ i ∧ i < (tokens.length : Int) := by
  intro i hi hns
  by_cases hne : seeds = []
  · subst hne
    simp [extract] at hi
  · cases hsk : ov.getD instS with
    | true =>
      rw [extract_word_ids_skip _ _ _ _ _ hsk hne, Finset.mem_sort] at hi
      have hexp := (Finset.mem_sdiff.mp hi).1
      rcases expand_bound _ _ _ (buildAdjacency_nonneg tokens _ hD hW) _ _ _ i hexp with
        h | h
      · exact absurd h hns
      · exact h
    | false =>
      rw [extract_word_ids_noskip _ _ _ _ _ hsk hne, Finset.mem_sort] at hi
      rcases expand_bound _ _ _ (buildAdjacency_nonneg tokens _ hD hW) _ _ _ i hi with
        h | h
      · exact absurd h hns
      · exact h

theorem C9_expansion_in_range_witness :
    DenseIds exTokens ∧ WFChildren exTokens ∧
      (0 : Int) ∈ (extract false exTokens [exSeedCat] 1 none).word_ids ∧
      (0 : Int) ∉ seedUnionIds [exSeedCat] ∧
      (0 : Int) ≥ 0 ∧ (0 : Int) < (exTokens.length : Int) :=
  have h0 : (0 : Int) ∈ (extract false exTokens [exSeedCat] 1 none).word_ids := by
    rw [extract_word_ids_noskip false exTokens [exSeedCat] 1 none (by decide) (by decide),
      Finset.mem_sort]
    decide
  have hns : (0 : Int) ∉ seedUnionIds [exSeedCat] := by decide
  ⟨by decide, by decide, h0, hns,
    (C9_expansion_in_range false exTokens [exSeedCat] 1 none (by decide) (by decide)
        0 h0 hns).1,
    (C9_expansion_in_range false exTokens [exSeedCat] 1 none (by decide) (by decide)
        0 h0 hns).2⟩

lemma find_id_off :
    ∀ (l : List ParsedToken) (off : Int),
      (∀ i (h : i < l.length), (l.get ⟨i, h⟩).id = off + (i : Int)) →
      ∀ (k : Nat) (hk : k < l.length),
        l.find? (fun u => u.id == off + (k : Int)) = some (l.get ⟨k, hk⟩) := by
  intro l
  induction l with
  | nil => intro off _ k hk; simp at hk
  | cons t ts ih =>
    intro off hids k hk
    have h0 : t.id = off := by
      have := hids 0 (by simp)
      simpa using this
    cases k with
    | zero =>
      rw [List.find?_cons_of_pos]
      · rfl
      · simp [h0]
    | succ j =>
      rw [List.find?_cons_of_neg]
      · have hts : ∀ i (h : i < ts.length),
            (ts.get ⟨i, h⟩).id = (off + 1) + (i : Int) := by
          intro i h
          have hstep := hids (i + 1) (by simpa using Nat.succ_lt_succ h)
          rw [List.get_cons_succ] at hstep
          rw [hstep]
          push_cast
          ring
        have hrec := ih (off + 1) hts j (by simpa using Nat.lt_of_succ_lt_succ hk)
        have hfun : (fun u : ParsedToken => u.id == off + ((j + 1 : Nat) : Int))
            = (fun u : ParsedToken => u.id == (off + 1) + (j : Int)) := by
          funext u
          congr 1
          push_cast
          ring
        rw [hfun, hrec]
        rfl
      · simp only [h0, beq_iff_eq, decide_eq_true_eq]
        push_cast
        omega

lemma find_id_of_mem {tokens : List ParsedToken} (hD : DenseIds tokens)
    {c : ParsedToken} (hc : c ∈ tokens) :
    tokens.find? (fun u => u.id == c.id) = some c := by
  obtain ⟨k, hk, hget, hid⟩ := dense_mem_id_eq hD hc
  have h := find_id_off tokens 0 (by intro i hi; simpa using hD i hi) k hk
  have hfun : (fun u : ParsedToken => u.id == (0 : Int) + (k : Int))
      = (fun u : ParsedToken => u.id == c.id) := by
    funext u
    congr 1
    rw [hid, zero_add]
  rw [hfun] at h
  rw [h, hget]

/-- C2 counterexample: in the parse of "The cat is happy ." with "is"
(id 2) as the root-position copula, the transparent token *does* keep
outgoing adjacency to its former neighbors — the child-link pass still runs
for the transparent token itself, so "is" is directly adjacent to its child
"cat" (id 1) in both directions, contradicting "keeps no outgoing adjacency
to its former neighbors individually". -/
theorem C2_counterexample :
    (2 : Int) ∈ copulaIds exTokens ∧
      (1 : Int) ∈ buildAdjacency exTokens (copulaIds exTokens) 2 ∧
      (2 : Int) ∈ buildAdjacency exTokens (copulaIds exTokens) 1 := by
  refine ⟨by decide, by decide, by decide⟩

/-- C2 amended: with transparent-node handling enabled, for every
transparent (root-position copula) token `c`: (i) the dependents of `c`
become directly adjacent to each other — every token whose head is `c` is
linked bidirectionally to each other recorded child of `c` with in-range
id — but (ii) the transparent token itself *remains* directly adjacent to
its non-transparent in-range children via the ordinary child-link pass (it
is excluded from extraction results only by the final copula-removal step,
not by the adjacency). -/
theorem C2_adjacency_amended (tokens : List ParsedToken)
    (hD : DenseIds tokens) (hW : WFChildren tokens)
    (c : ParsedToken) (hc : c ∈ tokens) (hcop : c.id ∈ copulaIds tokens) :
    (∀ a ∈ tokens, a.head_id = c.id →
      ∀ b ∈ c.children_ids, b ≠ a.id → b < (tokens.length : Int) →
        b ∈ buildAdjacency tokens (copulaIds tokens) a.id ∧
          a.id ∈ buildAdjacency tokens (copulaIds tokens) b) ∧
    (∀ ch ∈ c.children_ids, ch < (tokens.length : Int) → ch ∉ copulaIds tokens →
        ch ∈ buildAdjacency tokens (copulaIds tokens) c.id ∧
          c.id ∈ buildAdjacency tokens (copulaIds tokens) ch) := by
  have hcid : 0 ≤ c.id := dense_id_nonneg hD hc
  constructor
  · intro a ha hhead b hb hbne hblt
    unfold buildAdjacency
    refine @foldl_establish ParsedToken (Int → Finset Int)
      (fun adj => b ∈ adj a.id ∧ a.id ∈ adj b)
      (processToken tokens (copulaIds tokens)) a ?_ ?_ tokens _ ha
    · rintro acc x ⟨h1, h2⟩
      exact ⟨processToken_subset _ _ _ _ _ h1, processToken_subset _ _ _ _ _ h2⟩
    · intro acc
      unfold processToken
      have hsib : b ∈ sibStep tokens (copulaIds tokens) acc a a.id ∧
          a.id ∈ sibStep tokens (copulaIds tokens) acc a b := by
        unfold sibStep
        rw [if_pos (by rw [hhead]; exact ⟨hcop, hcid⟩)]
        have hfind : tokens.find? (fun u => u.id == a.head_id) = some c := by
          rw [hhead]
          exact find_id_of_mem hD hc
        rw [hfind]
        refine @foldl_establish Int (Int → Finset Int)
          (fun adj => b ∈ adj a.id ∧ a.id ∈ adj b) _ b ?_ ?_ c.children_ids acc hb
        · rintro acc' x ⟨h1, h2⟩
          constructor
          · by_cases hx : x ≠ a.id ∧ x < (tokens.length : Int)
            · rw [if_pos hx]; exact addEdge_subset _ _ _ _ h1
            · rw [if_neg hx]; exact h1
          · by_cases hx : x ≠ a.id ∧ x < (tokens.length : Int)
            · rw [if_pos hx]; exact addEdge_subset _ _ _ _ h2
            · rw [if_neg hx]; exact h2
        · intro acc'
          rw [if_pos ⟨hbne, hblt⟩]
          exact ⟨addEdge_mem_fst acc' a.id b, addEdge_mem_snd acc' a.id b⟩
      exact ⟨childStep_subset _ _ _ _ _ (headStep_subset _ _ _ _ _ hsib.1),
        childStep_subset _ _ _ _ _ (headStep_subset _ _ _ _ _ hsib.2)⟩
  · intro ch hch hchlt hchntr
    unfold buildAdjacency
    refine @foldl_establish ParsedToken (Int → Finset Int)
      (fun adj => ch ∈ adj c.id ∧ c.id ∈ adj ch)
      (processToken tokens (copulaIds tokens)) c ?_ ?_ tokens _ hc
    · rintro acc x ⟨h1, h2⟩
      exact ⟨processToken_subset _ _ _ _ _ h1, processToken_subset _ _ _ _ _ h2⟩
    · intro acc
      unfold processToken childStep
      refine @foldl_establish Int (Int → Finset Int)
        (fun adj => ch ∈ adj c.id ∧ c.id ∈ adj ch) _ ch ?_ ?_ c.children_ids _ hch
      · rintro acc' x ⟨h1, h2⟩
        constructor
        · by_cases hx : x < (tokens.length : Int) ∧ x ∉ copulaIds tokens
          · rw [if_pos hx]; exact addEdge_subset _ _ _ _ h1
          · rw [if_neg hx]; exact h1
        · by_cases hx : x < (tokens.length : Int) ∧ x ∉ copulaIds tokens
          · rw [if_pos hx]; exact addEdge_subset _ _ _ _ h2
          · rw [if_neg hx]; exact h2
      · intro acc'
        rw [if_pos ⟨hchlt, hchntr⟩]
        exact ⟨addEdge_mem_fst acc' c.id ch, addEdge_mem_snd acc' c.id ch⟩

theorem C2_adjacency_witness :
    DenseIds exTokens ∧ WFChildren exTokens ∧
      (exTokens.get ⟨2, by decide⟩) ∈ exTokens ∧
      (exTokens.get ⟨2, by decide⟩).id ∈ copulaIds exTokens ∧
      (1 : Int) ∈ buildAdjacency exTokens (copulaIds exTokens) 3 ∧
      (3 : Int) ∈ buildAdjacency exTokens (copulaIds exTokens) 1 :=
  have hmem : (exTokens.get ⟨2, by decide⟩) ∈ exTokens := by decide
  have h := (C2_adjacency_amended exTokens (by decide) (by decide)
    (exTokens.get ⟨2, by decide⟩) hmem (by decide)).1
    (exTokens.get ⟨1, by decide⟩) (by decide) (by decide) 3 (by decide)
    (by decide) (by decide)
  ⟨by decide, by decide, hmem, by decide, by exact_mod_cast h.2, by exact_mod_cast h.1⟩

lemma occursAt_length {p s : List Char} {k : Nat} (hp : p ≠ []) (h : occursAt p s k) :
    k + p.length ≤ s.length := by
  unfold occursAt at h
  have h1 := h.length_le
  rw [List.length_drop] at h1
  have h2 : 0 < p.length := List.length_pos.mpr hp
  omega

lemma occursAt_append_left {p a b : List Char} {k : Nat} (h : k + p.length ≤ a.length) :
    occursAt p (a ++ b) k ↔ occursAt p a k := by
  unfold occursAt
  have hk : k ≤ a.length := le_trans (Nat.le_add_right _ _) h
  rw [List.prefix_iff_eq_take, List.prefix_iff_eq_take,
    List.drop_append_of_le_length hk,
    List.take_append_of_le_length (by rw [List.length_drop]; omega)]

lemma occursAt_append_right {p a b : List Char} {k : Nat} (h : a.length ≤ k) :
    occursAt p (a ++ b) k ↔ occursAt p b (k - a.length) := by
  unfold occursAt
  have hdrop : (a ++ b).drop k = b.drop (k - a.length) := by
    have hk : k = a.length + (k - a.length) := by omega
    conv_lhs => rw [hk, ← List.drop_drop, List.drop_left]
  rw [hdrop]

lemma occursAt_getElem {p s : List Char} {k : Nat} (h : occursAt p s k)
    {i : Nat} (hi : i < p.length) : s[k + i]? = some (p[i]) := by
  unfold occursAt at h
  have hlen : i < (s.drop k).length := lt_of_lt_of_le hi h.length_le
  have h1 := h.getElem hi
  have h2 : (s.drop k)[i]? = s[k + i]? := List.getElem?_drop s k i
  rw [← h2, List.getElem?_eq_getElem hlen, h1]

lemma occursAt_weaken {p q s : List Char} {k : Nat} (hpq : p <+: q)
    (h : occursAt q s k) : occursAt p s k :=
  hpq.trans h

lemma occursAt_shift {x y s : List Char} {k : Nat} (h : occursAt (x ++ y) s k) :
    occursAt y s (k + x.length) := by
  unfold occursAt at h ⊢
  obtain ⟨r, hr⟩ := h
  have hdrop : s.drop (k + x.length) = y ++ r := by
    rw [← List.drop_drop, ← hr, List.append_assoc, List.drop_left]
  rw [hdrop]
  exact List.prefix_append y r

lemma occursAt_self_append (p r : List Char) : occursAt p (p ++ r) 0 := by
  unfold occursAt
  rw [List.drop_zero]
  exact List.prefix_append p r

lemma not_occursAt_allWS {p : List Char} (hp : GoodPh p) {w : List Char}
    (hw : ∀ c ∈ w, c.isWhitespace) (k : Nat) : ¬ occursAt p w k := by
  intro h
  have hp0 : 0 < p.length := List.length_pos.mpr hp.1
  have hchar := occursAt_getElem h hp0
  rw [Nat.add_zero] at hchar
  have hmem : p[0] ∈ w := List.getElem?_mem hchar
  exact hp.2 _ (List.getElem_mem hp0) (hw _ hmem)

lemma not_occursAt_of_not_infix {p t : List Char} (h : ¬ p <:+: t) (k : Nat) :
    ¬ occursAt p t k := by
  intro hocc
  exact h (hocc.isInfix.trans (List.drop_suffix k t).isInfix)

lemma infix_iff_exists_occursAt {p s : List Char} :
    p <:+: s ↔ ∃ k, occursAt p s k := by
  constructor
  · rintro ⟨u, v, huv⟩
    refine ⟨u.length, ?_⟩
    unfold occursAt
    rw [← huv, List.append_assoc, List.drop_left]
    exact List.prefix_append p v
  · rintro ⟨k, h⟩
    exact (h.isInfix.trans (List.drop_suffix k s).isInfix)

lemma countOccs_eq_zero {p s : List Char} (h : ∀ k, ¬ occursAt p s k) :
    countOccs p s = 0 := by
  unfold countOccs
  rw [List.countP_eq_zero]
  intro k _
  simp only [decide_eq_true_eq]
  exact h k

lemma countOccs_append {p a b : List Char} (hp : p ≠ [])
    (h : ∀ k, k < a.length → a.length < k + p.length → ¬ occursAt p (a ++ b) k) :
    countOccs p (a ++ b) = countOccs p a + countOccs p b := by
  unfold countOccs
  rw [List.length_append, List.range_add, List.countP_append, List.countP_map]
  congr 1
  · apply List.countP_congr
    intro k hk
    rw [List.mem_range] at hk
    simp only [decide_eq_true_eq]
    by_cases hle : k + p.length ≤ a.length
    · exact occursAt_append_left hle
    · constructor
      · intro hocc
        exact absurd hocc (h k hk (by omega))
      · intro hocc
        exact absurd (occursAt_length hp hocc) hle
  · apply List.countP_congr
    intro k hk
    rw [List.mem_range] at hk
    simp only [Function.comp_apply, decide_eq_true_eq]
    have := occursAt_append_right (p := p) (a := a) (b := b)
      (k := a.length + k) (Nat.le_add_right _ _)
    simpa using this

lemma countOccs_self {p : List Char} (hp : p ≠ []) : countOccs p p = 1 := by
  unfold countOccs
  obtain ⟨m, hm⟩ : ∃ m, p.length = m + 1 := by
    cases hq : p with
    | nil => exact absurd hq hp
    | cons c cs => exact ⟨cs.length, by simp⟩
  rw [hm, List.range_succ_eq_map, List.countP_cons, List.countP_map]
  have h0 : decide (occursAt p p 0) = true := by
    simp only [decide_eq_true_eq]
    unfold occursAt
    rw [List.drop_zero]
  have hzero : (List.range m).countP ((fun k => decide (occursAt p p k)) ∘ Nat.succ) = 0 := by
    rw [List.countP_eq_zero]
    intro j _
    simp only [Function.comp_apply, decide_eq_true_eq]
    intro hocc
    have := occursAt_length hp hocc
    omega
  rw [hzero, h0]
  rfl

lemma not_occursAt_straddle_endsWS {ph s b : List Char} (hph : GoodPh ph)
    (hend : ∃ s₀ c, s = s₀ ++ [c] ∧ c.isWhitespace)
    {k : Nat} (hk1 : k < s.length) (hk2 : s.length < k + ph.length) :
    ¬ occursAt ph (s ++ b) k := by
  intro hocc
  obtain ⟨s₀, c, rfl, hc⟩ := hend
  have hs : (s₀ ++ [c]).length = s₀.length + 1 := by simp
  have hi : s₀.length - k < ph.length := by omega
  have hchar := occursAt_getElem hocc hi
  rw [show k + (s₀.length - k) = s₀.length by omega] at hchar
  have hcval : ((s₀ ++ [c]) ++ b)[s₀.length]? = some c := by
    rw [List.getElem?_append_left (by simp)]
    rw [List.getElem?_append_right (le_refl _)]
    simp
  rw [hcval] at hchar
  have heq : ph[s₀.length - k] = c := by
    injection hchar with h
    exact h.symm
  exact hph.2 _ (List.getElem_mem hi) (heq ▸ hc)

lemma not_occursAt_straddle_headWS {ph a b : List Char} (hph : GoodPh ph)
    (hb : ∀ c ∈ b, c.isWhitespace)
    {k : Nat} (hk1 : k < a.length) (hk2 : a.length < k + ph.length) :
    ¬ occursAt ph (a ++ b) k := by
  intro hocc
  have hi : a.length - k < ph.length := by omega
  have hchar := occursAt_getElem hocc hi
  rw [show k + (a.length - k) = a.length by omega] at hchar
  have hb0 : (a ++ b)[a.length]? = b[0]? := by
    rw [List.getElem?_append_right (le_refl _)]
    simp
  rw [hb0] at hchar
  have hmem : ph[a.length - k] ∈ b := List.getElem?_mem hchar
  exact hph.2 _ (List.getElem_mem hi) (hb _ hmem)

lemma not_occursAt_textws {ph t w : List Char} (hph : GoodPh ph)
    (ht : GoodText ph t) (hw : GoodWS w) (k : Nat) : ¬ occursAt ph (t ++ w) k := by
  intro hocc
  by_cases h1 : k + ph.length ≤ t.length
  · exact not_occursAt_of_not_infix ht.2.2 k ((occursAt_append_left h1).mp hocc)
  · by_cases h2 : t.length ≤ k
    · exact not_occursAt_allWS hph hw.2 _ ((occursAt_append_right h2).mp hocc)
    · exact not_occursAt_straddle_headWS hph hw.2 (by omega) (by omega) hocc

lemma occ_gapchunk {ph t w : List Char} (hph : GoodPh ph) (ht : GoodText ph t)
    (hw : GoodWS w) (j : Nat) :
    occursAt ph (ph ++ ' ' :: (t ++ w)) j ↔ j = 0 := by
  constructor
  · intro hocc
    by_contra hj
    have hjpos : 1 ≤ j := Nat.one_le_iff_ne_zero.mpr hj
    have hphpos : 0 < ph.length := List.length_pos.mpr hph.1
    by_cases hcase : j ≤ ph.length
    · have hi : ph.length - j < ph.length := by omega
      have hchar := occursAt_getElem hocc hi
      rw [show j + (ph.length - j) = ph.length by omega] at hchar
      have hsp : (ph ++ ' ' :: (t ++ w))[ph.length]? = some ' ' := by
        rw [List.getElem?_append_right (le_refl _)]
        simp
      rw [hsp] at hchar
      have heq : ph[ph.length - j] = ' ' := by
        injection hchar with h
        exact h.symm
      have hws : (ph[ph.length - j]).isWhitespace := by
        rw [heq]
        decide
      exact hph.2 _ (List.getElem_mem hi) hws
    · push_neg at hcase
      have hocc2 := (occursAt_append_right (a := ph) (by omega)).mp hocc
      have hocc3 : occursAt ph ([' '] ++ (t ++ w)) (j - ph.length) := hocc2
      have hocc4 := (occursAt_append_right (a := [' ']) (b := t ++ w)
        (by simp; omega)).mp hocc3
      exact not_occursAt_textws hph ht hw _ hocc4
  · rintro rfl
    exact occursAt_self_append ph _

lemma occ_phonly {ph : List Char} (hph : GoodPh ph) (j : Nat) :
    occursAt ph ph j ↔ j = 0 := by
  constructor
  · intro h
    have h1 := occursAt_length hph.1 h
    have h2 : 0 < ph.length := List.length_pos.mpr hph.1
    omega
  · rintro rfl
    unfold occursAt
    rw [List.drop_zero]

lemma loc_tok {ph s t w : List Char} (hph : GoodPh ph) (ht : GoodText ph t)
    (hw : GoodWS w) (hend : s = [] ∨ ∃ s₀ c, s = s₀ ++ [c] ∧ c.isWhitespace)
    (k : Nat) :
    occursAt ph (s ++ (t ++ w)) k ↔ (occursAt ph s k ∧ k + ph.length ≤ s.length) := by
  constructor
  · intro hocc
    by_cases h1 : k + ph.length ≤ s.length
    · exact ⟨(occursAt_append_left h1).mp hocc, h1⟩
    · exfalso
      by_cases h2 : s.length ≤ k
      · exact not_occursAt_textws hph ht hw _ ((occursAt_append_right h2).mp hocc)
      · rcases hend with rfl | hend
        · simp at h2
        · exact not_occursAt_straddle_endsWS hph hend (by omega) (by omega) hocc
  · rintro ⟨hocc, hle⟩
    exact (occursAt_append_left hle).mpr hocc

lemma loc_gap {ph s t w : List Char} (hph : GoodPh ph) (ht : GoodText ph t)
    (hw : GoodWS w) (hend : s = [] ∨ ∃ s₀ c, s = s₀ ++ [c] ∧ c.isWhitespace)
    (k : Nat) :
    occursAt ph (s ++ (ph ++ ' ' :: (t ++ w))) k ↔
      ((occursAt ph s k ∧ k + ph.length ≤ s.length) ∨ k = s.length) := by
  constructor
  · intro hocc
    by_cases h1 : k + ph.length ≤ s.length
    · exact Or.inl ⟨(occursAt_append_left h1).mp hocc, h1⟩
    · by_cases h2 : s.length ≤ k
      · have hj := (occ_gapchunk hph ht hw _).mp ((occursAt_append_right h2).mp hocc)
        exact Or.inr (by omega)
      · exfalso
        rcases hend with rfl | hend
        · simp at h2
        · exact not_occursAt_straddle_endsWS hph hend (by omega) (by omega) hocc
  · rintro (⟨hocc, hle⟩ | rfl)
    · exact (occursAt_append_left hle).mpr hocc
    · refine (occursAt_append_right (le_refl _)).mpr ?_
      rw [Nat.sub_self]
      exact occursAt_self_append ph _

lemma loc_end {ph s : List Char} (hph : GoodPh ph)
    (hend : ∃ s₀ c, s = s₀ ++ [c] ∧ c.isWhitespace) (k : Nat) :
    occursAt ph (s ++ ph) k ↔
      ((occursAt ph s k ∧ k + ph.length ≤ s.length) ∨ k = s.length) := by
  constructor
  · intro hocc
    by_cases h1 : k + ph.length ≤ s.length
    · exact Or.inl ⟨(occursAt_append_left h1).mp hocc, h1⟩
    · by_cases h2 : s.length ≤ k
      · have hj := (occ_phonly hph _).mp ((occursAt_append_right h2).mp hocc)
        exact Or.inr (by omega)
      · exact absurd hocc (not_occursAt_straddle_endsWS hph hend (by omega) (by omega))
  · rintro (⟨hocc, hle⟩ | rfl)
    · exact (occursAt_append_left hle).mpr hocc
    · refine (occursAt_append_right (le_refl _)).mpr ?_
      rw [Nat.sub_self]
      unfold occursAt
      rw [List.drop_zero]

lemma pat_occ_decomp {ph s : List Char} {k : Nat}
    (hocc : occursAt (ph ++ ' ' :: ph) s k) :
    occursAt ph s k ∧ occursAt ph s (k + ph.length + 1) := by
  refine ⟨occursAt_weaken (List.prefix_append ph _) hocc, ?_⟩
  have hsplit : ph ++ ' ' :: ph = (ph ++ [' ']) ++ ph := by
    rw [List.append_cons]
  rw [hsplit] at hocc
  have hshift := occursAt_shift hocc
  have hlen : (ph ++ [' ']).length = ph.length + 1 := by simp
  rw [hlen] at hshift
  rw [← Nat.add_assoc] at hshift
  exact hshift

lemma countOccs_eq_one_of_iff_zero {p s : List Char} (hp : p ≠ [])
    (hs : 0 < s.length) (h : ∀ k, occursAt p s k ↔ k = 0) : countOccs p s = 1 := by
  unfold countOccs
  obtain ⟨m, hm⟩ : ∃ m, s.length = m + 1 := ⟨s.length - 1, by omega⟩
  rw [hm, List.range_succ_eq_map, List.countP_cons, List.countP_map]
  have h0 : decide (occursAt p s 0) = true := by
    simp only [decide_eq_true_eq]
    exact (h 0).mpr rfl
  have hzero : (List.range m).countP ((fun k => decide (occursAt p s k)) ∘ Nat.succ) = 0 := by
    rw [List.countP_eq_zero]
    intro j _
    simp only [Function.comp_apply, decide_eq_true_eq]
    intro hocc
    exact Nat.succ_ne_zero j ((h (j + 1)).mp hocc)
  rw [hzero, h0]
  rfl

lemma flatten_chunk_tok (ps : List (List Char)) (t w : List Char) :
    (ps ++ [t, w]).flatten = ps.flatten ++ (t ++ w) := by
  simp

lemma flatten_chunk_gap (ps : List (List Char)) (ph t w : List Char) :
    (ps ++ [ph, [' '], t, w]).flatten = ps.flatten ++ (ph ++ ' ' :: (t ++ w)) := by
  simp

lemma pat_ne_nil (ph : List Char) : ph ++ ' ' :: ph ≠ [] := by
  simp

lemma chunks_flatten_props {ph : List Char} (hph : GoodPh ph) :
    ∀ {ps : List (List Char)} {n : Nat}, Chunks ph ps n →
      (ps = [] ∨ ∃ s₀ c, ps.flatten = s₀ ++ [c] ∧ c.isWhitespace) ∧
      countOccs ph ps.flatten = n ∧
      (∀ k, ¬ occursAt (ph ++ ' ' :: ph) ps.flatten k) ∧
      (∀ k, occursAt ph ps.flatten k → k + ph.length + 1 ≠ ps.flatten.length) := by
  intro ps n hch
  have hphpos : 0 < ph.length := List.length_pos.mpr hph.1
  induction hch with
  | nil =>
    refine ⟨Or.inl rfl, rfl, ?_, ?_⟩
    · intro k hocc
      have hlen := occursAt_length (pat_ne_nil ph) hocc
      simp only [List.flatten_nil, List.length_nil, List.length_append,
        List.length_cons] at hlen
      omega
    · intro k hocc
      have hlen := occursAt_length hph.1 hocc
      simp only [List.flatten_nil, List.length_nil] at hlen
      simp only [List.flatten_nil, List.length_nil]
      omega
  | @tok ps n t w hchps ht hw ih =>
    obtain ⟨ih1, ih2, ih3, ih4⟩ := ih
    have hend : ps.flatten = [] ∨ ∃ s₀ c, ps.flatten = s₀ ++ [c] ∧ c.isWhitespace := by
      rcases ih1 with rfl | h
      · exact Or.inl rfl
      · exact Or.inr h
    have htpos : 0 < t.length := List.length_pos.mpr ht.1
    have hwpos : 0 < w.length := List.length_pos.mpr hw.1
    refine ⟨?_, ?_, ?_, ?_⟩
    · right
      obtain ⟨w₀, c, hw0⟩ := (List.eq_nil_or_concat' w).resolve_left hw.1
      refine ⟨ps.flatten ++ (t ++ w₀), c, ?_, ?_⟩
      · rw [flatten_chunk_tok, hw0]
        simp [List.append_assoc]
      · exact hw.2 c (by rw [hw0]; simp)
    · have hstraddle : ∀ k, k < ps.flatten.length → ps.flatten.length < k + ph.length →
          ¬ occursAt ph (ps.flatten ++ (t ++ w)) k := by
        intro k hk1 hk2 hocc
        have := ((loc_tok hph ht hw hend k).mp hocc).2
        omega
      rw [flatten_chunk_tok, countOccs_append hph.1 hstraddle, ih2,
        countOccs_eq_zero (not_occursAt_textws hph ht hw)]
      omega
    · intro k hocc
      rw [flatten_chunk_tok] at hocc
      obtain ⟨h1, h2⟩ := pat_occ_decomp hocc
      have hl2 := (loc_tok hph ht hw hend _).mp h2
      have hlen : k + (ph ++ ' ' :: ph).length ≤ ps.flatten.length := by
        simp only [List.length_append, List.length_cons]
        omega
      exact ih3 k ((occursAt_append_left hlen).mp hocc)
    · intro k hocc
      rw [flatten_chunk_tok] at hocc ⊢
      have hl := (loc_tok hph ht hw hend k).mp hocc
      simp only [List.length_append]
      omega
  | @gap ps n t w hchps ht hw ih =>
    obtain ⟨ih1, ih2, ih3, ih4⟩ := ih
    have hend : ps.flatten = [] ∨ ∃ s₀ c, ps.flatten = s₀ ++ [c] ∧ c.isWhitespace := by
      rcases ih1 with rfl | h
      · exact Or.inl rfl
      · exact Or.inr h
    have htpos : 0 < t.length := List.length_pos.mpr ht.1
    have hwpos : 0 < w.length := List.length_pos.mpr hw.1
    refine ⟨?_, ?_, ?_, ?_⟩
    · right
      obtain ⟨w₀, c, hw0⟩ := (List.eq_nil_or_concat' w).resolve_left hw.1
      refine ⟨ps.flatten ++ (ph ++ ' ' :: (t ++ w₀)), c, ?_, ?_⟩
      · rw [flatten_chunk_gap, hw0]
        simp [List.append_assoc]
      · exact hw.2 c (by rw [hw0]; simp)
    · have hstraddle : ∀ k, k < ps.flatten.length → ps.flatten.length < k + ph.length →
          ¬ occursAt ph (ps.flatten ++ (ph ++ ' ' :: (t ++ w))) k := by
        intro k hk1 hk2 hocc
        rcases (loc_gap hph ht hw hend k).mp hocc with ⟨_, hle⟩ | rfl
        · omega
        · omega
      rw [flatten_chunk_gap, countOccs_append hph.1 hstraddle, ih2,
        countOccs_eq_one_of_iff_zero hph.1 (by simp) (occ_gapchunk hph ht hw)]
    · intro k hocc
      rw [flatten_chunk_gap] at hocc
      obtain ⟨h1, h2⟩ := pat_occ_decomp hocc
      have hl1 := (loc_gap hph ht hw hend k).mp h1
      have hl2 := (loc_gap hph ht hw hend _).mp h2
      rcases hl1 with ⟨ho1, hle1⟩ | heq1
      · rcases hl2 with ⟨ho2, hle2⟩ | heq2
        · have hlen : k + (ph ++ ' ' :: ph).length ≤ ps.flatten.length := by
            simp only [List.length_append, List.length_cons]
            omega
          exact ih3 k ((occursAt_append_left hlen).mp hocc)
        · exact ih4 k ho1 heq2
      · rcases hl2 with ⟨ho2, hle2⟩ | heq2
        · omega
        · omega
    · intro k hocc
      rw [flatten_chunk_gap] at hocc ⊢
      have hl := (loc_gap hph ht hw hend k).mp hocc
      simp only [List.length_append, List.length_cons]
      rcases hl with ⟨_, hle⟩ | rfl
      · omega
      · omega

lemma final_parts_props {ph : List Char} (hph : GoodPh ph)
    {ps : List (List Char)} {n : Nat} (hch : Chunks ph ps n) (hne : ps ≠ []) :
    countOccs ph ((ps ++ [ph]).flatten) = n + 1 ∧
      ∀ k, ¬ occursAt (ph ++ ' ' :: ph) ((ps ++ [ph]).flatten) k := by
  obtain ⟨h1, h2, h3, h4⟩ := chunks_flatten_props hph hch
  have hend := h1.resolve_left hne
  have hflat : (ps ++ [ph]).flatten = ps.flatten ++ ph := by simp
  rw [hflat]
  constructor
  · have hstraddle : ∀ k, k < ps.flatten.length → ps.flatten.length < k + ph.length →
        ¬ occursAt ph (ps.flatten ++ ph) k :=
      fun k hk1 hk2 => not_occursAt_straddle_endsWS hph hend hk1 hk2
    rw [countOccs_append hph.1 hstraddle, h2, countOccs_self hph.1]
  · intro k hocc
    obtain ⟨ho1, ho2⟩ := pat_occ_decomp hocc
    have hl1 := (loc_end hph hend k).mp ho1
    have hl2 := (loc_end hph hend _).mp ho2
    rcases hl1 with ⟨hocc1, hle1⟩ | heq1
    · rcases hl2 with ⟨hocc2, hle2⟩ | heq2
      · have hlen : k + (ph ++ ' ' :: ph).length ≤ ps.flatten.length := by
          simp only [List.length_append, List.length_cons]
          omega
        exact h3 k ((occursAt_append_left hlen).mp hocc)
      · exact h4 k hocc1 heq2
    · rcases hl2 with ⟨hocc2, hle2⟩ | heq2
      · have := List.length_pos.mpr hph.1
        omega
      · have := List.length_pos.mpr hph.1
        omega

lemma stripChars_decomp (s : List Char) :
    ∃ a b, s = a ++ stripChars s ++ b ∧
      (∀ c ∈ a, c.isWhitespace) ∧ (∀ c ∈ b, c.isWhitespace) := by
  unfold stripChars dropLeadingWS dropTrailingWS
  set s1 := s.dropWhile Char.isWhitespace with hs1
  refine ⟨s.takeWhile Char.isWhitespace,
    (s1.reverse.takeWhile Char.isWhitespace).reverse, ?_, ?_, ?_⟩
  · have h1 : s = s.takeWhile Char.isWhitespace ++ s1 :=
      (List.takeWhile_append_dropWhile _ _).symm
    have h2 : s1.reverse = s1.reverse.takeWhile Char.isWhitespace
        ++ s1.reverse.dropWhile Char.isWhitespace :=
      (List.takeWhile_append_dropWhile _ _).symm
    have h3 : s1 = (s1.reverse.dropWhile Char.isWhitespace).reverse
        ++ (s1.reverse.takeWhile Char.isWhitespace).reverse := by
      have := congrArg List.reverse h2
      rw [List.reverse_reverse, List.reverse_append] at this
      exact this
    rw [List.append_assoc, ← h3]
    exact h1
  · intro c hc
    exact List.mem_takeWhile_imp hc
  · intro c hc
    rw [List.mem_reverse] at hc
    exact List.mem_takeWhile_imp hc

lemma countOccs_strip {ph : List Char} (hph : GoodPh ph) (s : List Char) :
    countOccs ph (stripChars s) = countOccs ph s := by
  obtain ⟨a, b, heq, ha, hb⟩ := stripChars_decomp s
  have hstraddle1 : ∀ k, k < a.length → a.length < k + ph.length →
      ¬ occursAt ph (a ++ (stripChars s ++ b)) k := by
    intro k hk1 hk2 hocc
    rcases (List.eq_nil_or_concat' a).resolve_left (by intro h; rw [h] at hk1; simp at hk1)
      with ⟨a₀, c, hac⟩
    exact not_occursAt_straddle_endsWS hph
      ⟨a₀, c, hac, ha c (by rw [hac]; simp)⟩ hk1 hk2 hocc
  have hstraddle2 : ∀ k, k < (stripChars s).length → (stripChars s).length < k + ph.length →
      ¬ occursAt ph (stripChars s ++ b) k := by
    intro k hk1 hk2
    exact not_occursAt_straddle_headWS hph hb hk1 hk2
  conv_rhs => rw [heq]
  rw [List.append_assoc, countOccs_append hph.1 hstraddle1,
    countOccs_append hph.1 hstraddle2,
    countOccs_eq_zero (not_occursAt_allWS hph ha),
    countOccs_eq_zero (not_occursAt_allWS hph hb)]
  omega

lemma not_occursAt_strip {p s : List Char} (h : ∀ k, ¬ occursAt p s k) (k : Nat) :
    ¬ occursAt p (stripChars s) k := by
  intro hocc
  obtain ⟨a, b, heq, _, _⟩ := stripChars_decomp s
  have hinf : p <:+: s := by
    have h1 : p <:+: stripChars s :=
      hocc.isInfix.trans (List.drop_suffix _ _).isInfix
    have h2 : stripChars s <:+: s := ⟨a, b, heq.symm⟩
    exact h1.trans h2
  obtain ⟨k', hk'⟩ := infix_iff_exists_occursAt.mp hinf
  exact h k' hk'

lemma collapsePh_id {ph s : List Char}
    (h : ∀ k, ¬ occursAt (ph ++ ' ' :: ph) s k) : collapsePh ph s = s := by
  unfold collapsePh
  show collapseGo ph (s.length + 1) s = s
  rw [collapseGo]
  rw [if_neg]
  intro hinf
  obtain ⟨k, hk⟩ := infix_iff_exists_occursAt.mp hinf
  exact h k hk

lemma renderLoop_props (includeIds : Finset Int) (ph : List Char) :
    ∀ (ts : List ParsedToken),
      (∀ t ∈ ts, GoodText ph t.text ∧ GoodWS t.whitespace_after) →
      ∀ (parts : List (List Char)) (n : Nat) (g : Bool), Chunks ph parts n →
        Chunks ph (renderLoop includeIds ph ts parts g).1
            (n + gapExits includeIds g ts) ∧
          (renderLoop includeIds ph ts parts g).2 = finalGap includeIds g ts ∧
          ((parts ≠ [] ∨ ∃ t ∈ ts, t.id ∈ includeIds) →
            (renderLoop includeIds ph ts parts g).1 ≠ []) := by
  intro ts
  induction ts with
  | nil =>
    intro _ parts n g hch
    refine ⟨?_, rfl, ?_⟩
    · simpa [renderLoop, gapExits] using hch
    · intro hcond
      rcases hcond with hne | ⟨t, ht, _⟩
      · exact hne
      · simp at ht
  | cons t ts ih =>
    intro hgood parts n g hch
    have hgt := hgood t (by simp)
    have hgood' : ∀ u ∈ ts, GoodText ph u.text ∧ GoodWS u.whitespace_after :=
      fun u hu => hgood u (List.mem_cons_of_mem t hu)
    by_cases hmem : t.id ∈ includeIds
    · cases g with
      | true =>
        have hparts : parts ++ (if true then [ph, [' ']] else [])
            ++ [t.text, t.whitespace_after]
            = parts ++ [ph, [' '], t.text, t.whitespace_after] := by simp
        have hch' : Chunks ph (parts ++ [ph, [' '], t.text, t.whitespace_after]) (n + 1) :=
          Chunks.gap hch hgt.1 hgt.2
        have hloop : renderLoop includeIds ph (t :: ts) parts true
            = renderLoop includeIds ph ts
                (parts ++ [ph, [' '], t.text, t.whitespace_after]) false := by
          show (if t.id ∈ includeIds then _ else _) = _
          rw [if_pos hmem, hparts]
        obtain ⟨c1, c2, c3⟩ := ih hgood' _ (n + 1) false hch'
        rw [hloop]
        have harith : n + gapExits includeIds true (t :: ts)
            = (n + 1) + gapExits includeIds false ts := by
          show n + (if t.id ∈ includeIds then _ else _) = _
          rw [if_pos hmem]
          simp only [eq_self_iff_true, if_true]
          omega
        have hfg : finalGap includeIds true (t :: ts) = finalGap includeIds false ts := by
          show (if t.id ∈ includeIds then _ else _) = _
          rw [if_pos hmem]
        rw [harith, hfg]
        exact ⟨c1, c2, fun _ => c3 (Or.inl (by simp))⟩
      | false =>
        have hparts : parts ++ (if false then [ph, [' ']] else [])
            ++ [t.text, t.whitespace_after]
            = parts ++ [t.text, t.whitespace_after] := by simp
        have hch' : Chunks ph (parts ++ [t.text, t.whitespace_after]) n :=
          Chunks.tok hch hgt.1 hgt.2
        have hloop : renderLoop includeIds ph (t :: ts) parts false
            = renderLoop includeIds ph ts
                (parts ++ [t.text, t.whitespace_after]) false := by
          show (if t.id ∈ includeIds then _ else _) = _
          rw [if_pos hmem, hparts]
        obtain ⟨c1, c2, c3⟩ := ih hgood' _ n false hch'
        rw [hloop]
        have harith : n + gapExits includeIds false (t :: ts)
            = n + gapExits includeIds false ts := by
          show n + (if t.id ∈ includeIds then _ else _) = _
          rw [if_pos hmem]
          simp only [Bool.false_eq_true, if_false]
          omega
        have hfg : finalGap includeIds false (t :: ts) = finalGap includeIds false ts := by
          show (if t.id ∈ includeIds then _ else _) = _
          rw [if_pos hmem]
        rw [harith, hfg]
        exact ⟨c1, c2, fun _ => c3 (Or.inl (by simp))⟩
    · have hloop : renderLoop includeIds ph (t :: ts) parts g
          = renderLoop includeIds ph ts parts true := by
        show (if t.id ∈ includeIds then _ else _) = _
        rw [if_neg hmem]
      obtain ⟨c1, c2, c3⟩ := ih hgood' parts n true hch
      rw [hloop]
      have harith : gapExits includeIds g (t :: ts) = gapExits includeIds true ts := by
        show (if t.id ∈ includeIds then _ else _) = _
        rw [if_neg hmem]
      have hfg : finalGap includeIds g (t :: ts) = finalGap includeIds true ts := by
        show (if t.id ∈ includeIds then _ else _) = _
        rw [if_neg hmem]
      rw [harith, hfg]
      refine ⟨c1, c2, fun hcond => c3 ?_⟩
      rcases hcond with hne | ⟨u, hu, humem⟩
      · exact Or.inl hne
      · rcases List.mem_cons.mp hu with rfl | hu'
        · exact absurd humem hmem
        · exact Or.inr ⟨u, hu', humem⟩

lemma gapExits_runCount (includeIds : Finset Int) (wids : List Int)
    (hinc : ∀ i : Int, i ∈ includeIds ↔ i ∈ wids) :
    ∀ (ts : List ParsedToken) (g : Bool),
      gapExits includeIds g ts + (if finalGap includeIds g ts then 1 else 0)
        = runCount g (ts.map (fun t => decide (t.id ∉ wids))) + (if g then 1 else 0) := by
  intro ts
  induction ts with
  | nil => intro g; simp [gapExits, finalGap, runCount]
  | cons t ts ih =>
    intro g
    by_cases hmem : t.id ∈ includeIds
    · have hw : t.id ∈ wids := (hinc t.id).mp hmem
      have hb : (fun u : ParsedToken => decide (u.id ∉ wids)) t = false := by
        simp [hw]
      have h1 := ih false
      simp only [Bool.false_eq_true, if_false, eq_self_iff_true, if_true] at h1
      cases g <;>
        simp only [gapExits, finalGap, List.map_cons, runCount, hmem, hb,
          if_true, if_false, Bool.false_eq_true, Bool.not_true, Bool.not_false,
          false_and, and_false, and_true, true_and, not_true, not_false_iff,
          eq_self_iff_true] <;>
        omega
    · have hw : t.id ∉ wids := fun h => hmem ((hinc t.id).mpr h)
      have hb : (fun u : ParsedToken => decide (u.id ∉ wids)) t = true := by
        simp [hw]
      have h1 := ih true
      simp only [Bool.false_eq_true, if_false, eq_self_iff_true, if_true] at h1
      cases g <;>
        simp only [gapExits, finalGap, List.map_cons, runCount, hmem, hb,
          if_true, if_false, Bool.false_eq_true, Bool.not_true, Bool.not_false,
          false_and, and_false, and_true, true_and, not_true, not_false_iff,
          eq_self_iff_true] <;>
        omega

/-- C8: for every dense-id token sequence with well-formed texts (nonempty,
whitespace-free, placeholder-free) and nonempty all-whitespace trailing
whitespace, and every `SubgraphResult` with nonempty in-range `word_ids`,
`render` emits exactly one placeholder occurrence per maximal run of
consecutive excluded tokens — including a run extending to the end of the
sequence — never one per omitted token. -/
theorem C8_one_placeholder_per_gap (ph : List Char) (tokens : List ParsedToken)
    (result : SubgraphResult) (hph : GoodPh ph) (hD : DenseIds tokens)
    (htok : ∀ t ∈ tokens, GoodText ph t.text ∧ GoodWS t.whitespace_after)
    (hwne : result.word_ids ≠ [])
    (hsub : ∀ i ∈ result.word_ids, 0 ≤ i ∧ i < (tokens.length : Int)) :
    countOccs ph (render ph tokens result false)
      = maximalExcludedRuns result.word_ids tokens := by
  have hrender : render ph tokens result false
      = collapsePh ph (stripChars
          ((if (renderLoop result.word_ids.toFinset ph tokens [] false).2
              ∧ (renderLoop result.word_ids.toFinset ph tokens [] false).1 ≠ []
            then (renderLoop result.word_ids.toFinset ph tokens [] false).1 ++ [ph]
            else (renderLoop result.word_ids.toFinset ph tokens [] false).1).flatten)) := by
    simp only [render, if_neg hwne, Bool.false_eq_true, if_false, Finset.union_empty]
  rw [hrender]
  obtain ⟨hc, hg, hne⟩ :=
    renderLoop_props result.word_ids.toFinset ph tokens htok [] 0 false Chunks.nil
  obtain ⟨i, hi⟩ := List.exists_mem_of_ne_nil _ hwne
  have hib := hsub i hi
  have hexists : ∃ t ∈ tokens, t.id ∈ result.word_ids.toFinset := by
    have hlt : i.toNat < tokens.length := by omega
    refine ⟨tokens.get ⟨i.toNat, hlt⟩, List.get_mem tokens i.toNat hlt, ?_⟩
    rw [List.mem_toFinset, hD i.toNat hlt, Int.toNat_of_nonneg hib.1]
    exact hi
  have hne' := hne (Or.inr hexists)
  rw [Nat.zero_add] at hc
  have hbridge := gapExits_runCount result.word_ids.toFinset result.word_ids
    (fun j => List.mem_toFinset) tokens false
  simp only [Bool.false_eq_true, if_false] at hbridge
  unfold maximalExcludedRuns
  by_cases hg2 : (renderLoop result.word_ids.toFinset ph tokens [] false).2 = true
  · rw [if_pos ⟨hg2, hne'⟩]
    obtain ⟨hcount, hnopat⟩ := final_parts_props hph hc hne'
    rw [collapsePh_id (fun k => not_occursAt_strip hnopat k), countOccs_strip hph, hcount]
    rw [hg] at hg2
    rw [hg2, if_pos rfl] at hbridge
    omega
  · rw [if_neg (fun h => hg2 h.1)]
    obtain ⟨_, hcount, hnopat, _⟩ := chunks_flatten_props hph hc
    rw [collapsePh_id (fun k => not_occursAt_strip hnopat k), countOccs_strip hph, hcount]
    rw [hg] at hg2
    have hgf : finalGap result.word_ids.toFinset false tokens = false :=
      Bool.not_eq_true _ |>.mp hg2
    rw [hgf] at hbridge
    simp only [Bool.false_eq_true, if_false] at hbridge
    omega

theorem C8_one_placeholder_per_gap_witness :
    GoodPh defaultPh ∧ DenseIds exTokens ∧
      (∀ t ∈ exTokens, GoodText defaultPh t.text ∧ GoodWS t.whitespace_after) ∧
      ([0, 3] : List Int) ≠ [] ∧
      (∀ i ∈ ([0, 3] : List Int), 0 ≤ i ∧ i < (exTokens.length : Int)) ∧
      countOccs defaultPh
          (render defaultPh exTokens
            { word_ids := [0, 3], zoom_level := 1, seed_ids := [] } false)
        = maximalExcludedRuns [0, 3] exTokens :=
  ⟨by decide, by decide, by decide, by decide, by decide,
    C8_one_placeholder_per_gap defaultPh exTokens
      { word_ids := [0, 3], zoom_level := 1, seed_ids := [] }
      (by decide) (by decide) (by decide) (by decide) (by decide)⟩
